import Mathlib

/-
Verification of the event-withholding and hook-triggering core of evsieve
(src/event.rs, src/hook.rs, src/withhold.rs), as a shallow embedding in Lean.

Rust interior mutability (`Cell`, `&mut`) is rendered as explicit state
passing: every method that mutates `self` returns the updated value, and
every `events_out.push(..)` is rendered by returning the list of events
pushed during the call, in push order.
-/

namespace Evsieve

/-- src/event.rs: `pub type EventValue = i32`. Values are only compared,
never combined arithmetically, so unbounded integers are a faithful model. -/
abbrev EventValue := Int

/-- Modelled from the spec: `Domain` (its defining module is not under src/)
is an opaque identifier for the virtual source of an event; only equality on
it is ever used. -/
abbrev Domain := Nat

/-- src/event.rs: `EventType` is a newtype over `u16`. -/
structure EventType where
  val : Nat
deriving DecidableEq, Repr

/-- src/event.rs: `EventCode` bundles an event type with a numeric code. -/
structure EventCode where
  ev_type : EventType
  code : Nat
deriving DecidableEq, Repr

/-- src/event.rs: `Namespace`. -/
inductive Namespace
  | Input
  | User
  | Yielded
  | Output
deriving DecidableEq, Repr

/-- Modelled from the spec: the per-event flag kinds. The `flags` field and
`EventFlag` are used by src/withhold.rs but defined in a module not under
src/; the spec fixes that the flag set contains at least the `Withholdable`
marker. -/
inductive EventFlag
  | Withholdable
deriving DecidableEq, Repr

/-- Modelled from the spec: the per-event flag set, with one bit per
`EventFlag`. -/
structure EventFlags where
  withholdable : Bool
deriving DecidableEq, Repr

/-- Modelled from the spec: read one flag out of the flag set. -/
def EventFlags.get (f : EventFlags) : EventFlag → Bool
  | EventFlag.Withholdable => f.withholdable

/-- Modelled from the spec: clear one flag in the flag set. -/
def EventFlags.unset (f : EventFlags) : EventFlag → EventFlags
  | EventFlag.Withholdable => { f with withholdable := false }

/-- src/event.rs: `Event`. The Rust field `namespace` is renamed `ns`
because `namespace` is a Lean keyword. -/
structure Event where
  code : EventCode
  value : EventValue
  previous_value : EventValue
  domain : Domain
  ns : Namespace
  flags : EventFlags
deriving DecidableEq, Repr

/-- src/event.rs: `pub type Channel = (EventCode, Domain)`. -/
abbrev Channel := EventCode × Domain

/-- src/event.rs: `Event::channel`. -/
def Event.channel (e : Event) : Channel := (e.code, e.domain)

/-- src/withhold.rs line 36: the event copy with its `Withholdable` flag
cleared (`event.flags.unset(EventFlag::Withholdable)`). -/
def clearW (e : Event) : Event :=
  { e with flags := e.flags.unset EventFlag.Withholdable }

/-- Modelled from the spec: `Range` (src/range.rs is not under src/) is
numeric interval containment with optional bounds; `Range::new(Some(1),
None)` is the default "1 or greater" held range. -/
structure Range where
  min : Option Int
  max : Option Int
deriving DecidableEq, Repr

/-- Modelled from the spec: `Range::new`. -/
def Range.new (mn mx : Option Int) : Range := { min := mn, max := mx }

/-- Modelled from the spec: `Range::contains`, interval membership with
optional bounds. -/
def Range.contains (r : Range) (v : Int) : Bool :=
  (match r.min with
   | some m => decide (m ≤ v)
   | none => true)
  && (match r.max with
      | some m => decide (v ≤ m)
      | none => true)

/-- Modelled from the spec: `Key` (src/key.rs is not under src/) matches an
event against an optional code pattern, an optional domain and an optional
value range; `pop_value` detaches the value range. -/
structure Key where
  code : Option EventCode
  domain : Option Domain
  value : Option Range
deriving DecidableEq, Repr

/-- Modelled from the spec: `Key::matches`. -/
def Key.matches (k : Key) (e : Event) : Bool :=
  (match k.code with
   | some c => decide (e.code = c)
   | none => true)
  && ((match k.domain with
       | some d => decide (e.domain = d)
       | none => true)
      && (match k.value with
          | some r => r.contains e.value
          | none => true))

/-- Modelled from the spec: `Key::pop_value`, returning the key without its
value range together with the detached range. -/
def Key.pop_value (k : Key) : Key × Option Range :=
  ({ k with value := none }, k.value)

/-- src/hook.rs: `Tracker`. The Rust `state: Cell<bool>` becomes a plain
boolean field updated by returning a new tracker. -/
structure Tracker where
  key : Key
  range : Range
  state : Bool
deriving DecidableEq, Repr

/-- src/hook.rs: `Tracker::new`. -/
def Tracker.new (key : Key) : Tracker :=
  let p := key.pop_value
  { key := p.1
    range := p.2.getD (Range.new (some 1) none)
    state := false }

/-- src/hook.rs: `Tracker::apply`. Returns the updated tracker and the
boolean result of the Rust method. -/
def Tracker.apply (t : Tracker) (event : Event) : Tracker × Bool :=
  if t.key.matches event then
    let previous_value := t.state
    let new_value := t.range.contains event.value
    ({ t with state := new_value }, new_value && !previous_value)
  else
    (t, false)

/-- src/hook.rs: `Tracker::is_down`. -/
def Tracker.is_down (t : Tracker) : Bool := t.state

/-- src/hook.rs lines 71-73: the expression
`self.hold_trackers.iter().any(|tracker| tracker.apply(event))`.
Rust's `Iterator::any` short-circuits at the first `true`, and
`Tracker::apply` mutates the tracker through its `Cell`, so trackers after
the first rising edge are not fed the event. Returns the tracker list as it
stands after the `any` call together with its boolean result. -/
def applyTrackersAny : List Tracker → Event → List Tracker × Bool
  | [], _ => ([], false)
  | t :: ts, e =>
    let p := t.apply e
    if p.2 then (p.1 :: ts, true)
    else
      let r := applyTrackersAny ts e
      (p.1 :: r.1, r.2)

/-- src/hook.rs: `Hook`. The external `State` type mutated by effects is a
type parameter `S`; a Rust `Effect = Box<dyn Fn(&mut State)>` becomes a
state transformer `S → S`. -/
structure Hook (S : Type) where
  hold_trackers : List Tracker
  effects : List (S → S)

/-- src/hook.rs: `Hook::new`. -/
def Hook.new (S : Type) (hold_keys : List Key) : Hook S :=
  { hold_trackers := hold_keys.map Tracker.new, effects := [] }

/-- src/hook.rs: `Hook::add_effect`. -/
def Hook.add_effect {S : Type} (h : Hook S) (effect : S → S) : Hook S :=
  { h with effects := h.effects ++ [effect] }

/-- src/hook.rs: `Hook::apply_effects`, invoking every effect in
registration order on the shared state. -/
def Hook.apply_effects {S : Type} (h : Hook S) (s : S) : S :=
  h.effects.foldl (fun a f => f a) s

/-- src/hook.rs: `Hook::apply`. Returns the hook with its updated trackers
and the (possibly effect-modified) shared state. -/
def Hook.apply {S : Type} (h : Hook S) (event : Event) (s : S) : Hook S × S :=
  let p := applyTrackersAny h.hold_trackers event
  let h2 : Hook S := { h with hold_trackers := p.1 }
  if !p.2 then (h2, s)
  else if p.1.all Tracker.is_down then (h2, h2.apply_effects s)
  else (h2, s)

/-- src/hook.rs: `Hook::apply_to_all`, folding `apply` over a batch. -/
def Hook.apply_to_all {S : Type} (h : Hook S) (events : List Event) (s : S) :
    Hook S × S :=
  events.foldl (fun acc e => Hook.apply acc.1 e acc.2) (h, s)

/-- Derived predicate: `Hook::apply` runs its effects on this event, i.e.
the short-circuit tracker scan reports a rising edge and afterwards every
tracker reports held (src/hook.rs lines 77-87). -/
def Hook.fires {S : Type} (h : Hook S) (event : Event) : Bool :=
  (applyTrackersAny h.hold_trackers event).2
  && (applyTrackersAny h.hold_trackers event).1.all Tracker.is_down

/-- Running a tracker over a list of events, collecting the boolean results
in order (used for the edge-counting property). -/
def Tracker.applyAll (t : Tracker) : List Event → Tracker × List Bool
  | [] => (t, [])
  | e :: es =>
    let p := t.apply e
    let r := p.1.applyAll es
    (r.1, p.2 :: r.2)

/-- Number of rising edges in a boolean trace given the preceding value:
counts the positions that hold `true` directly after a `false` (or after
the given initial value). Starting from `false` this is the number of
maximal runs of `true`. -/
def countRuns : Bool → List Bool → Nat
  | _, [] => 0
  | prev, b :: bs => (if b && !prev then 1 else 0) + countRuns b bs

/-- src/withhold.rs: `TriggerResponse` (referenced from `crate::hook`; its
defining code is not under src/, the spec fixes the four variants). -/
inductive TriggerResponse
  | None
  | Matches
  | Releases
  | Activates
deriving DecidableEq, Repr

/-- Timer tokens handed out by the loopback collaborator; opaque, only
passed through. -/
abbrev Token := Nat

/-- Modelled from the spec: the `Trigger` type is referenced by
src/withhold.rs but its definition is not under src/. The spec (section
4.3) fixes only its interface: a stateful `apply` returning a
`TriggerResponse`, the channel-membership queries, and a timer `wakeup`
returning whether the trigger's pending activation window expired. We model
an arbitrary implementation of that interface as a transition system over a
state type `T`; the `LoopbackHandle` threaded through the Rust `apply` is
internal to the trigger and absorbed into `T`. -/
structure TriggerOps (T : Type) where
  apply : T → Event → T × TriggerResponse
  has_tracker_matching_channel : T → Channel → Bool
  has_active_tracker_matching_channel : T → Channel → Bool
  wakeup : T → Token → T × Bool

/-- src/withhold.rs: `ChannelState`. -/
inductive ChannelState
  | Withheld (withheld_event : Event)
  | Residual
deriving DecidableEq, Repr

/-- src/withhold.rs: `Withhold`, parameterized by the trigger state type. -/
structure Withhold (T : Type) where
  triggers : List T
  keys : List Key
  channel_state : List (Channel × ChannelState)
deriving DecidableEq, Repr

/-- src/withhold.rs: `Withhold::new`. -/
def Withhold.new {T : Type} (keys : List Key) (triggers : List T) : Withhold T :=
  { keys := keys, triggers := triggers, channel_state := [] }

/-- src/withhold.rs lines 43-53: feed the event to every trigger in order,
collecting the updated triggers and (in order) the updated triggers that
responded `Activates`. -/
def applyAllTriggers {T : Type} (ops : TriggerOps T) :
    List T → Event → List T × List T
  | [], _ => ([], [])
  | tr :: trs, e =>
    let p := ops.apply tr e
    let r := applyAllTriggers ops trs e
    (p.1 :: r.1,
     if p.2 = TriggerResponse.Activates then p.1 :: r.2 else r.2)

/-- src/withhold.rs lines 62-65: look up the state recorded for a channel
(the first matching entry, as `iter_mut().find` does). -/
def lookupChannel (cs : List (Channel × ChannelState)) (c : Channel) :
    Option ChannelState :=
  (cs.find? (fun p => decide (p.1 = c))).map Prod.snd

/-- Overwrite the first entry for channel `c` (the one `iter_mut().find`
returned a mutable reference to) with the given state. -/
def setFirst : List (Channel × ChannelState) → Channel → ChannelState →
    List (Channel × ChannelState)
  | [], _, _ => []
  | p :: rest, c, st =>
    if p.1 = c then (p.1, st) :: rest else p :: setFirst rest c st

/-- src/withhold.rs lines 59-99: the per-event channel bookkeeping block of
`Withhold::apply` (steps 3 of the spec), acting on the flag-cleared event.
Returns the `final_event` option and the updated channel-state list. -/
def stepChannelUpdate (keys : List Key) (cs : List (Channel × ChannelState))
    (event : Event) : Option Event × List (Channel × ChannelState) :=
  if keys.any (fun k => k.matches event) then
    if event.value = 1 then
      -- Withhold the event.
      match lookupChannel cs event.channel with
      | none => (none, cs ++ [(event.channel, ChannelState.Withheld event)])
      | some ChannelState.Residual =>
        (none, setFirst cs event.channel (ChannelState.Withheld event))
      | some (ChannelState.Withheld _) => (none, cs)
    else if event.value = 0 then
      -- Remove a Residual block. If no Residual block is present, pass on.
      match lookupChannel cs event.channel with
      | none => (some event, cs)
      | some (ChannelState.Withheld _) => (some event, cs)
      | some ChannelState.Residual =>
        (none, cs.filter (fun p => !decide (p.1 = event.channel)))
    else
      -- KEY_REP events and other invalid values get dropped.
      (none, cs)
  else
    -- This event can not be withheld.
    (some event, cs)

/-- Derived notion for stating the press case: the event that sits parked
on the event's channel right after the press bookkeeping — the previously
parked event when the channel was already `Withheld`, the incoming
(flag-consumed) press otherwise. -/
def parkedTarget (cs : List (Channel × ChannelState)) (event : Event) :
    Event :=
  match lookupChannel cs event.channel with
  | some (ChannelState.Withheld ev0) => ev0
  | _ => event

/-- src/withhold.rs lines 103-111: the loop body of the claim step — a
withheld entry whose channel some just-activated trigger statically
matches becomes `Residual`, every other entry is unchanged. -/
def claimEntry {T : Type} (ops : TriggerOps T) (activated : List T)
    (p : Channel × ChannelState) : Channel × ChannelState :=
  match p.2 with
  | ChannelState.Withheld ev =>
    if activated.any (fun tr => ops.has_tracker_matching_channel tr p.1)
    then (p.1, ChannelState.Residual)
    else (p.1, ChannelState.Withheld ev)
  | ChannelState.Residual => p

/-- src/withhold.rs lines 101-112: every withheld channel matched by a
trigger that just activated becomes `Residual`. -/
def claimActivated {T : Type} (ops : TriggerOps T) (activated : List T)
    (cs : List (Channel × ChannelState)) : List (Channel × ChannelState) :=
  cs.map (claimEntry ops activated)

/-- src/withhold.rs lines 144-146: the `is_still_withheld` test — some
trigger still has an active tracker matching the channel. -/
def stillWithheld {T : Type} (ops : TriggerOps T) (triggers : List T)
    (c : Channel) : Bool :=
  triggers.any (fun tr => ops.has_active_tracker_matching_channel tr c)

/-- src/withhold.rs lines 140-154: the body of `Withhold::release_events`.
The `retain` keeps an entry unless it is `Withheld` and no trigger still has
an active tracker matching its channel, in which case the parked event is
pushed. Returns the retained entries and the pushed events, both in list
order. -/
def releaseScan {T : Type} (ops : TriggerOps T) (triggers : List T) :
    List (Channel × ChannelState) → List (Channel × ChannelState) × List Event
  | [] => ([], [])
  | p :: rest =>
    match p.2 with
    | ChannelState.Withheld ev =>
      if stillWithheld ops triggers p.1
      then
        let r := releaseScan ops triggers rest
        (p :: r.1, r.2)
      else
        let r := releaseScan ops triggers rest
        (r.1, ev :: r.2)
    | ChannelState.Residual =>
      let r := releaseScan ops triggers rest
      (p :: r.1, r.2)

/-- src/withhold.rs: `Withhold::release_events`. -/
def Withhold.release_events {T : Type} (ops : TriggerOps T) (w : Withhold T) :
    Withhold T × List Event :=
  let r := releaseScan ops w.triggers w.channel_state
  ({ w with channel_state := r.1 }, r.2)

/-- src/withhold.rs: `Withhold::apply`. Returns the updated `Withhold` and
the events pushed to `events_out` during this call, in push order. -/
def Withhold.apply {T : Type} (ops : TriggerOps T) (w : Withhold T)
    (event0 : Event) : Withhold T × List Event :=
  if event0.flags.get EventFlag.Withholdable then
    let event := clearW event0
    let tr := applyAllTriggers ops w.triggers event
    let fe := stepChannelUpdate w.keys w.channel_state event
    let cs2 := claimActivated ops tr.2 fe.2
    let rel := releaseScan ops tr.1 cs2
    ({ triggers := tr.1, keys := w.keys, channel_state := rel.1 },
     rel.2 ++ fe.1.toList)
  else
    -- Skip all events that did not match any preceding hook.
    (w, [event0])

/-- src/withhold.rs: `Withhold::apply_to_all`, folding `apply` over a batch
and concatenating the pushed events. -/
def Withhold.apply_to_all {T : Type} (ops : TriggerOps T) (w : Withhold T)
    (events : List Event) : Withhold T × List Event :=
  events.foldl
    (fun acc e =>
      let p := Withhold.apply ops acc.1 e
      (p.1, acc.2 ++ p.2))
    (w, [])

/-- src/withhold.rs lines 122-128: deliver the wakeup token to every
trigger, recording whether some trigger expired (no short-circuit). -/
def wakeupTriggers {T : Type} (ops : TriggerOps T) :
    List T → Token → List T × Bool
  | [], _ => ([], false)
  | tr :: trs, tk =>
    let p := ops.wakeup tr tk
    let r := wakeupTriggers ops trs tk
    (p.1 :: r.1, p.2 || r.2)

/-- src/withhold.rs: `Withhold::wakeup`. -/
def Withhold.wakeup {T : Type} (ops : TriggerOps T) (w : Withhold T)
    (tk : Token) : Withhold T × List Event :=
  let p := wakeupTriggers ops w.triggers tk
  let w2 : Withhold T := { w with triggers := p.1 }
  if !p.2 then (w2, [])
  else
    let r := releaseScan ops w2.triggers w2.channel_state
    ({ w2 with channel_state := r.1 }, r.2)

/-- One external call into a `Withhold`: either an event fed through
`apply` or a timer wakeup. -/
inductive WithholdCall
  | ev (e : Event)
  | wake (tk : Token)
deriving DecidableEq, Repr

/-- Run a sequence of calls against a `Withhold`, concatenating everything
pushed to the output stream. -/
def Withhold.run {T : Type} (ops : TriggerOps T) (w : Withhold T) :
    List WithholdCall → Withhold T × List Event
  | [] => (w, [])
  | WithholdCall.ev e :: rest =>
    let p := Withhold.apply ops w e
    let r := Withhold.run ops p.1 rest
    (r.1, p.2 ++ r.2)
  | WithholdCall.wake tk :: rest =>
    let p := Withhold.wakeup ops w tk
    let r := Withhold.run ops p.1 rest
    (r.1, p.2 ++ r.2)

/-- The `Withhold` states reachable from `Withhold::new` by any sequence of
`apply_to_all`, `apply` and `wakeup` calls. -/
inductive Reachable {T : Type} (ops : TriggerOps T) : Withhold T → Prop
  | new (keys : List Key) (triggers : List T) :
      Reachable ops (Withhold.new keys triggers)
  | apply_step {w : Withhold T} (e : Event) :
      Reachable ops w → Reachable ops (Withhold.apply ops w e).1
  | apply_to_all_step {w : Withhold T} (events : List Event) :
      Reachable ops w → Reachable ops (Withhold.apply_to_all ops w events).1
  | wakeup_step {w : Withhold T} (tk : Token) :
      Reachable ops w → Reachable ops (Withhold.wakeup ops w tk).1

/-- The internal well-formedness of a `Withhold`: at most one channel-state
entry per channel, and every parked event was parked on its own channel
with press value 1. -/
def WithholdInv {T : Type} (w : Withhold T) : Prop :=
  (w.channel_state.map Prod.fst).Nodup
  ∧ ∀ p ∈ w.channel_state, ∀ ev, p.2 = ChannelState.Withheld ev →
      ev.channel = p.1 ∧ ev.value = 1

/-- A trivial trigger implementation over the unit state: never matches any
channel, never activates, never expires. Used to instantiate the abstract
trigger interface on concrete examples. -/
def unitOps : TriggerOps Unit :=
  { apply := fun _ _ => ((), TriggerResponse.None)
    has_tracker_matching_channel := fun _ _ => false
    has_active_tracker_matching_channel := fun _ _ => false
    wakeup := fun _ _ => ((), false) }

/-- A trigger implementation over a boolean state: while the state is
`true` the trigger has an active tracker matching every channel; a wakeup
expires it. Used to exercise the withhold-then-release-on-wakeup path. -/
def holdOps : TriggerOps Bool :=
  { apply := fun b _ => (b, TriggerResponse.Matches)
    has_tracker_matching_channel := fun _ _ => false
    has_active_tracker_matching_channel := fun b _ => b
    wakeup := fun _ _ => (false, true) }

/-- A trigger implementation over the unit state that activates on every
event and statically matches every channel, with no active trackers
afterwards. Used to exercise the claim (`Withheld` to `Residual`) path. -/
def actOps : TriggerOps Unit :=
  { apply := fun _ _ => ((), TriggerResponse.Activates)
    has_tracker_matching_channel := fun _ _ => true
    has_active_tracker_matching_channel := fun _ _ => false
    wakeup := fun _ _ => ((), false) }

/- Concrete fixtures for counterexamples and witnesses. -/

def codeA : EventCode := { ev_type := { val := 1 }, code := 30 }

def codeB : EventCode := { ev_type := { val := 1 }, code := 48 }

def codeC : EventCode := { ev_type := { val := 1 }, code := 46 }

def keyA : Key := { code := some codeA, domain := none, value := none }

def keyB : Key := { code := some codeB, domain := none, value := none }

def keyC : Key := { code := some codeC, domain := none, value := none }

/-- A concrete event with the given code, value and withholdable flag. -/
def mkEv (c : EventCode) (v : EventValue) (wh : Bool) : Event :=
  { code := c, value := v, previous_value := 0, domain := 0
    ns := Namespace.User, flags := { withholdable := wh } }

def trackerA : Tracker := Tracker.new keyA

def trackerB : Tracker := Tracker.new keyB

/-- A hook whose two trackers both watch key A (legal configuration:
`--hook key:a key:a`), with one counting effect. -/
def hookAA : Hook Nat :=
  { hold_trackers := [trackerA, trackerA], effects := [fun n => n + 1] }

/-- A hook holding keys A and B with one counting effect. -/
def hookAB : Hook Nat :=
  { hold_trackers := [trackerA, trackerB], effects := [fun n => n + 1] }

/-- `hookAB` after its A tracker went down. -/
def hookABdown : Hook Nat :=
  { hold_trackers := [{ trackerA with state := true }, trackerB]
    effects := [fun n => n + 1] }

def evA : Event := mkEv codeA 1 false

def evB : Event := mkEv codeB 1 false

def pressC : Event := mkEv codeC 1 true

def relC : Event := mkEv codeC 0 true

/-- A withhold on key C with no triggers at all. -/
def wNoTrig : Withhold Unit := Withhold.new [keyC] []

/-- A withhold on key C whose channel already carries a Residual block. -/
def wResid : Withhold Unit :=
  { triggers := [], keys := [keyC]
    channel_state := [((codeC, 0), ChannelState.Residual)] }

/-- A withhold on key C with one `holdOps` trigger that is still active. -/
def wHold : Withhold Bool := Withhold.new [keyC] [true]

/-- `wHold` after a withholdable C press was parked. -/
def wHoldParked : Withhold Bool := (Withhold.apply holdOps wHold pressC).1

/-
Theorems.
-/

@[simp]
theorem clearW_channel (e : Event) : (clearW e).channel = e.channel := rfl

@[simp]
theorem clearW_value (e : Event) : (clearW e).value = e.value := rfl

@[simp]
theorem Key.matches_clearW (k : Key) (e : Event) :
    k.matches (clearW e) = k.matches e := rfl

@[simp]
theorem clearW_flag (e : Event) :
    (clearW e).flags.get EventFlag.Withholdable = false := rfl

/-- A tracker only returns `true` when it was not previously down. -/
theorem Tracker.apply_true_state (t : Tracker) (e : Event)
    (h : (t.apply e).2 = true) : t.state = false := by
  unfold Tracker.apply at h
  by_cases hm : t.key.matches e
  · simp only [hm, if_true] at h
    cases ht : t.state
    · rfl
    · rw [ht] at h; simp at h
  · simp [hm] at h

/-- A tracker that is already down cannot report a rising edge. -/
theorem Tracker.apply_false_of_down (t : Tracker) (e : Event)
    (h : t.state = true) : (t.apply e).2 = false := by
  unfold Tracker.apply
  by_cases hm : t.key.matches e
  · simp [hm, h]
  · simp [hm]

/-- When no tracker reports a rising edge, the short-circuit `any` feeds
the event to every tracker and returns `false`. -/
theorem applyTrackersAny_no_edge (ts : List Tracker) (e : Event)
    (h : ∀ t ∈ ts, (t.apply e).2 = false) :
    applyTrackersAny ts e = (ts.map (fun t => (t.apply e).1), false) := by
  induction ts with
  | nil => rfl
  | cons t ts ih =>
    have ht := h t (List.mem_cons_self t ts)
    have hrest := ih (fun t2 h2 => h t2 (List.mem_cons_of_mem _ h2))
    simp only [applyTrackersAny, ht, List.map_cons, hrest]
    simp

/-- When the trackers before position `pre.length` report no rising edge
and the tracker there does, the short-circuit `any` stops right after it:
the updated list keeps the tail untouched. -/
theorem applyTrackersAny_edge (pre : List Tracker) (t : Tracker)
    (post : List Tracker) (e : Event)
    (hpre : ∀ t2 ∈ pre, (t2.apply e).2 = false)
    (ht : (t.apply e).2 = true) :
    applyTrackersAny (pre ++ t :: post) e
      = (pre.map (fun t2 => (t2.apply e).1) ++ (t.apply e).1 :: post, true) := by
  induction pre with
  | nil =>
    simp only [List.nil_append, applyTrackersAny, ht, List.map_nil]
    simp
  | cons p pre ih =>
    have hp := hpre p (List.mem_cons_self p pre)
    have hrest := ih (fun t2 h2 => hpre t2 (List.mem_cons_of_mem _ h2))
    simp only [List.cons_append, applyTrackersAny, hp, List.map_cons]
    simp [hrest]

/-- If the short-circuit `any` returns `true`, some original tracker
reports a rising edge on this event. -/
theorem applyTrackersAny_true (ts : List Tracker) (e : Event)
    (h : (applyTrackersAny ts e).2 = true) :
    ∃ t ∈ ts, (t.apply e).2 = true := by
  induction ts with
  | nil => simp [applyTrackersAny] at h
  | cons t ts ih =>
    by_cases ht : (t.apply e).2 = true
    · exact ⟨t, List.mem_cons_self t ts, ht⟩
    · have ht2 : (t.apply e).2 = false := Bool.of_not_eq_true ht
      simp only [applyTrackersAny, ht2] at h
      simp only [Bool.false_eq_true, if_false] at h
      obtain ⟨t2, h2, h3⟩ := ih h
      exact ⟨t2, List.mem_cons_of_mem _ h2, h3⟩

/-- `Hook::apply` decomposed: the trackers are updated by the short-circuit
scan, and the effects run exactly when the hook fires. -/
theorem Hook.apply_decomp {S : Type} (h : Hook S) (e : Event) (s : S) :
    Hook.apply h e s
      = ({ h with hold_trackers := (applyTrackersAny h.hold_trackers e).1 },
         if Hook.fires h e then h.apply_effects s else s) := by
  unfold Hook.apply Hook.fires
  by_cases hany : (applyTrackersAny h.hold_trackers e).2 = true
  · by_cases hall :
        (applyTrackersAny h.hold_trackers e).1.all Tracker.is_down = true
    · simp [hany, hall, Hook.apply_effects]
    · simp [hany, Bool.of_not_eq_true hall, Hook.apply_effects]
  · simp [Bool.of_not_eq_true hany]

/-- Claim C7: if the tracker's key does not match the event, `Tracker::apply`
returns `false` and the stored state is unchanged; if it matches, the stored
state becomes whether the value lies in the held range, the key and range
are unchanged, and the call returns `true` exactly when the new state is
held and the previous one was not. -/
theorem claim_C7 (t : Tracker) (e : Event) :
    (t.key.matches e = false → t.apply e = (t, false))
    ∧ (t.key.matches e = true →
        (t.apply e).1.is_down = t.range.contains e.value
        ∧ (t.apply e).1.key = t.key
        ∧ (t.apply e).1.range = t.range
        ∧ ((t.apply e).2 = true ↔
            ((t.apply e).1.is_down = true ∧ t.is_down = false))) := by
  constructor
  · intro hm
    simp [Tracker.apply, hm]
  · intro hm
    refine ⟨?_, ?_, ?_, ?_⟩
    · simp [Tracker.apply, hm, Tracker.is_down]
    · simp [Tracker.apply, hm]
    · simp [Tracker.apply, hm]
    · simp only [Tracker.apply, hm, if_true, Tracker.is_down]
      cases hc : t.range.contains e.value <;> cases hs : t.state <;> simp

/-- Closed instance of claim C7: a fresh tracker for key A on an A-press. -/
theorem claim_C7_witness :
    (trackerA.apply evA).1.is_down = trackerA.range.contains evA.value
    ∧ (trackerA.apply evA).1.key = trackerA.key
    ∧ (trackerA.apply evA).1.range = trackerA.range
    ∧ ((trackerA.apply evA).2 = true ↔
        ((trackerA.apply evA).1.is_down = true ∧ trackerA.is_down = false)) :=
  (claim_C7 trackerA evA).2 (by decide)

/-- Generalized run-counting lemma: over any sequence of matching events
the number of `true` results of `Tracker::apply` equals the number of
rising edges of the in-range trace, relative to the tracker's current
state. -/
theorem trackerRun_count (es : List Event) (t : Tracker)
    (hmatch : ∀ e ∈ es, t.key.matches e = true) :
    (t.applyAll es).2.count true
      = countRuns t.state (es.map (fun e => t.range.contains e.value)) := by
  induction es generalizing t with
  | nil => simp [Tracker.applyAll, countRuns]
  | cons e es ih =>
    have hm := hmatch e (List.mem_cons_self e es)
    have happ : t.apply e
        = ({ t with state := t.range.contains e.value },
           t.range.contains e.value && !t.state) := by
      simp [Tracker.apply, hm]
    have hrest := ih { t with state := t.range.contains e.value }
      (fun e2 h2 => hmatch e2 (List.mem_cons_of_mem _ h2))
    simp only [Tracker.applyAll, happ, List.map_cons, countRuns,
      List.count_cons, hrest]
    cases t.range.contains e.value && !t.state <;> simp [Nat.add_comm]

/-- Claim C8: for a sequence of events matching a single tracker's key, fed
in order from the initial not-held state, the number of `true` results of
`Tracker::apply` equals the number of maximal runs in which the value goes
from outside the held range to inside it. -/
theorem claim_C8 (t : Tracker) (es : List Event)
    (hmatch : ∀ e ∈ es, t.key.matches e = true)
    (hinit : t.state = false) :
    (t.applyAll es).2.count true
      = countRuns false (es.map (fun e => t.range.contains e.value)) := by
  rw [trackerRun_count es t hmatch, hinit]

/-- Closed instance of claim C8: values 1,1,0,1 on key A give two maximal
in-range runs and two rising edges. -/
theorem claim_C8_witness :
    ((trackerA.applyAll
        [mkEv codeA 1 false, mkEv codeA 1 false,
         mkEv codeA 0 false, mkEv codeA 1 false]).2.count true)
      = countRuns false
          ([mkEv codeA 1 false, mkEv codeA 1 false,
            mkEv codeA 0 false, mkEv codeA 1 false].map
            (fun e => trackerA.range.contains e.value)) :=
  claim_C8 trackerA _ (by decide) (by decide)

/-- Claim C1 fails as stated: `Hook::apply` does not feed the event to
every tracker. The tracker scan is Rust's short-circuiting `iter().any`, so
on a hook holding key A twice, an A-press updates only the first tracker:
the resulting tracker list differs from the list in which each tracker's
state is updated by `Tracker::apply`. -/
theorem claim_C1_counterexample :
    ¬ ((Hook.apply hookAA evA (0 : Nat)).1.hold_trackers
        = hookAA.hold_trackers.map (fun t => (t.apply evA).1)) := by
  decide

/-- Claim C1 (amended): `Hook::apply` feeds the event to its trackers in
order, stopping right after the first tracker that reports a rising edge
(when none does, every tracker is fed and nothing further happens); if a
rising edge occurred and afterwards all trackers report held, every effect
is invoked exactly once, in registration order, on the shared processing
state. -/
theorem claim_C1 {S : Type} (h : Hook S) (e : Event) (s : S) :
    ((∀ t ∈ h.hold_trackers, (t.apply e).2 = false) →
      (Hook.apply h e s).1.hold_trackers
          = h.hold_trackers.map (fun t => (t.apply e).1)
      ∧ (Hook.apply h e s).2 = s)
    ∧ (∀ pre t post, h.hold_trackers = pre ++ t :: post →
        (∀ t2 ∈ pre, (t2.apply e).2 = false) → (t.apply e).2 = true →
        (Hook.apply h e s).1.hold_trackers
            = pre.map (fun t2 => (t2.apply e).1) ++ (t.apply e).1 :: post
        ∧ (Hook.apply h e s).2
            = (if (pre.map (fun t2 => (t2.apply e).1)
                    ++ (t.apply e).1 :: post).all Tracker.is_down
               then h.effects.foldl (fun a f => f a) s
               else s)) := by
  constructor
  · intro hno
    have hs := applyTrackersAny_no_edge h.hold_trackers e hno
    rw [Hook.apply_decomp, Hook.fires, hs]
    simp
  · intro pre t post hsplit hpre ht
    have hs := applyTrackersAny_edge pre t post e hpre ht
    rw [Hook.apply_decomp, Hook.fires, hsplit, hs]
    simp only [Hook.apply_effects]
    constructor
    · trivial
    · by_cases hall :
          (pre.map (fun t2 => (t2.apply e).1)
            ++ (t.apply e).1 :: post).all Tracker.is_down = true
      · simp [hall]
      · simp [Bool.of_not_eq_true hall]

/-- Closed instance of the amended claim C1, on the hook holding key A
twice: the first tracker takes the edge and the second keeps its old (not
held) state, so no effect runs. -/
theorem claim_C1_witness :
    (Hook.apply hookAA evA (0 : Nat)).1.hold_trackers
        = ([] : List Tracker).map (fun t2 => (t2.apply evA).1)
          ++ (trackerA.apply evA).1 :: [trackerA]
    ∧ (Hook.apply hookAA evA (0 : Nat)).2
        = (if (([] : List Tracker).map (fun t2 => (t2.apply evA).1)
                ++ (trackerA.apply evA).1 :: [trackerA]).all Tracker.is_down
           then hookAA.effects.foldl (fun a f => f a) 0
           else 0) :=
  (claim_C1 hookAA evA 0).2 [] trackerA [trackerA] rfl (by decide) (by decide)

/-- Claim C9: hook firing is edge-triggered per episode. The effects run
exactly when the tracker scan reports a rising edge and all trackers are
held afterwards; when that happens the hook was not fully held before the
event and is fully held after it; and while all trackers are already held,
further events (for instance repeats of held keys) never make it fire
again. -/
theorem claim_C9 {S : Type} (h : Hook S) (e : Event) (s : S) :
    ((Hook.apply h e s).2
        = (if Hook.fires h e then h.effects.foldl (fun a f => f a) s else s))
    ∧ (Hook.fires h e = true →
        h.hold_trackers.all Tracker.is_down = false
        ∧ (Hook.apply h e s).1.hold_trackers.all Tracker.is_down = true)
    ∧ (h.hold_trackers.all Tracker.is_down = true →
        Hook.fires h e = false ∧ (Hook.apply h e s).2 = s) := by
  refine ⟨?_, ?_, ?_⟩
  · rw [Hook.apply_decomp]
    rfl
  · intro hf
    have hany : (applyTrackersAny h.hold_trackers e).2 = true := by
      have := hf
      unfold Hook.fires at this
      exact (Bool.and_eq_true _ _ |>.mp this).1
    have hall : (applyTrackersAny h.hold_trackers e).1.all Tracker.is_down
        = true := by
      have := hf
      unfold Hook.fires at this
      exact (Bool.and_eq_true _ _ |>.mp this).2
    obtain ⟨t, htmem, htedge⟩ := applyTrackersAny_true h.hold_trackers e hany
    constructor
    · have hstate := Tracker.apply_true_state t e htedge
      cases hdown : h.hold_trackers.all Tracker.is_down
      · rfl
      · exfalso
        have := List.all_eq_true.mp hdown t htmem
        rw [Tracker.is_down, hstate] at this
        exact Bool.false_ne_true this
    · rw [Hook.apply_decomp]
      exact hall
  · intro hdown
    have hno : ∀ t ∈ h.hold_trackers, (t.apply e).2 = false := by
      intro t htmem
      exact Tracker.apply_false_of_down t e
        (List.all_eq_true.mp hdown t htmem)
    have hs := applyTrackersAny_no_edge h.hold_trackers e hno
    constructor
    · unfold Hook.fires
      rw [hs]
      simp
    · rw [Hook.apply_decomp]
      unfold Hook.fires
      rw [hs]
      simp

/-- Closed instance of claim C9: with the A tracker already held, a B-press
fires the hook (hook not fully held before, fully held after), and once
both are held a B-repeat does not fire it again. -/
theorem claim_C9_witness :
    (hookABdown.hold_trackers.all Tracker.is_down = false
      ∧ (Hook.apply hookABdown evB (0 : Nat)).1.hold_trackers.all
          Tracker.is_down = true)
    ∧ ((Hook.apply hookABdown evB (0 : Nat)).1.hold_trackers.all
          Tracker.is_down = true →
        Hook.fires (Hook.apply hookABdown evB (0 : Nat)).1 (mkEv codeB 2 false)
            = false
        ∧ (Hook.apply (Hook.apply hookABdown evB (0 : Nat)).1
            (mkEv codeB 2 false) (1 : Nat)).2 = 1) :=
  ⟨(claim_C9 hookABdown evB 0).2.1 (by decide),
   fun hd => (claim_C9 (Hook.apply hookABdown evB (0 : Nat)).1
      (mkEv codeB 2 false) 1).2.2 hd⟩

/-- The release scan is a `filter` on the entries paired with a `filterMap`
collecting the events it forwards: an entry survives unless it is withheld
on a channel no trigger still actively matches, in which case its parked
event is emitted instead. -/
theorem releaseScan_eq {T : Type} (ops : TriggerOps T) (triggers : List T)
    (cs : List (Channel × ChannelState)) :
    releaseScan ops triggers cs
      = (cs.filter (fun p =>
            match p.2 with
            | ChannelState.Withheld _ => stillWithheld ops triggers p.1
            | ChannelState.Residual => true),
         cs.filterMap (fun p =>
            match p.2 with
            | ChannelState.Withheld ev =>
              if stillWithheld ops triggers p.1 then none else some ev
            | ChannelState.Residual => none)) := by
  induction cs with
  | nil => rfl
  | cons p rest ih =>
    obtain ⟨c, st⟩ := p
    cases st with
    | Withheld ev =>
      by_cases h : stillWithheld ops triggers c = true
      · simp [releaseScan, h, List.filter_cons, List.filterMap_cons, ih]
      · simp [releaseScan, Bool.of_not_eq_true h, List.filter_cons,
          List.filterMap_cons, ih]
    | Residual =>
      simp [releaseScan, List.filter_cons, List.filterMap_cons, ih]

/-- The entries retained by the release scan form a sublist of the input. -/
theorem releaseScan_sublist {T : Type} (ops : TriggerOps T) (triggers : List T)
    (cs : List (Channel × ChannelState)) :
    (releaseScan ops triggers cs).1.Sublist cs := by
  rw [releaseScan_eq]
  exact List.filter_sublist cs

/-- Every event the release scan emits was parked in some withheld entry of
the input, on a channel no trigger still actively matches. -/
theorem releaseScan_out_mem {T : Type} (ops : TriggerOps T) (triggers : List T)
    (cs : List (Channel × ChannelState)) (x : Event)
    (hx : x ∈ (releaseScan ops triggers cs).2) :
    ∃ c, (c, ChannelState.Withheld x) ∈ cs
      ∧ stillWithheld ops triggers c = false := by
  rw [releaseScan_eq] at hx
  simp only [List.mem_filterMap] at hx
  obtain ⟨p, hp, hfp⟩ := hx
  obtain ⟨c, st⟩ := p
  cases st with
  | Withheld ev =>
    by_cases h : stillWithheld ops triggers c = true
    · simp [h] at hfp
    · have h2 := Bool.of_not_eq_true h
      simp only [h2] at hfp
      simp only [Bool.false_eq_true, if_false, Option.some.injEq] at hfp
      exact ⟨c, hfp ▸ hp, h2⟩
  | Residual => simp at hfp

/-- A withheld entry whose channel some trigger still actively matches
survives the release scan unchanged. -/
theorem releaseScan_keep {T : Type} (ops : TriggerOps T) (triggers : List T)
    (cs : List (Channel × ChannelState)) (c : Channel) (st : ChannelState)
    (hmem : (c, st) ∈ cs)
    (hkeep : stillWithheld ops triggers c = true ∨ st = ChannelState.Residual) :
    (c, st) ∈ (releaseScan ops triggers cs).1 := by
  rw [releaseScan_eq]
  apply List.mem_filter.mpr
  refine ⟨hmem, ?_⟩
  cases st with
  | Withheld ev =>
    rcases hkeep with h | h
    · simpa using h
    · cases h
  | Residual => simp

/-- Claiming never changes an entry's channel. -/
theorem claimEntry_fst {T : Type} (ops : TriggerOps T) (act : List T)
    (p : Channel × ChannelState) : (claimEntry ops act p).1 = p.1 := by
  obtain ⟨c, st⟩ := p
  cases st with
  | Withheld ev =>
    cases hb : act.any (fun tr => ops.has_tracker_matching_channel tr c)
    · simp only [claimEntry, hb, Bool.false_eq_true, if_false]
    · simp only [claimEntry, hb, if_true]
  | Residual => rfl

/-- Claiming a withheld entry on a claimed channel makes it `Residual`. -/
theorem claimEntry_claimed {T : Type} (ops : TriggerOps T) (act : List T)
    (c : Channel) (ev : Event)
    (h : act.any (fun tr => ops.has_tracker_matching_channel tr c) = true) :
    claimEntry ops act (c, ChannelState.Withheld ev)
      = (c, ChannelState.Residual) := by
  simp only [claimEntry, h, if_true]

/-- A withheld entry on an unclaimed channel passes the claim step
unchanged. -/
theorem claimEntry_unclaimed {T : Type} (ops : TriggerOps T) (act : List T)
    (c : Channel) (ev : Event)
    (h : act.any (fun tr => ops.has_tracker_matching_channel tr c) = false) :
    claimEntry ops act (c, ChannelState.Withheld ev)
      = (c, ChannelState.Withheld ev) := by
  simp only [claimEntry, h, Bool.false_eq_true, if_false]

/-- `claimActivated` does not change the channels of the entries. -/
theorem claimActivated_fst {T : Type} (ops : TriggerOps T) (act : List T)
    (cs : List (Channel × ChannelState)) :
    (claimActivated ops act cs).map Prod.fst = cs.map Prod.fst := by
  unfold claimActivated
  rw [List.map_map]
  apply List.map_congr_left
  intro p _
  exact claimEntry_fst ops act p

/-- A withheld entry of the claim step's output was a withheld entry of its
input (claiming only turns entries into `Residual`). -/
theorem claimActivated_withheld_mem {T : Type} (ops : TriggerOps T)
    (act : List T) (cs : List (Channel × ChannelState)) (c : Channel)
    (ev : Event)
    (h : (c, ChannelState.Withheld ev) ∈ claimActivated ops act cs) :
    (c, ChannelState.Withheld ev) ∈ cs := by
  unfold claimActivated at h
  simp only [List.mem_map] at h
  obtain ⟨⟨c2, st2⟩, hmem, heq⟩ := h
  cases st2 with
  | Withheld ev2 =>
    cases h2 : act.any (fun tr => ops.has_tracker_matching_channel tr c2) with
    | true =>
      rw [claimEntry_claimed ops act c2 ev2 h2, Prod.mk.injEq] at heq
      exact absurd heq.2 (by simp)
    | false =>
      rw [claimEntry_unclaimed ops act c2 ev2 h2, Prod.mk.injEq,
        ChannelState.Withheld.injEq] at heq
      rw [← heq.1, ← heq.2]
      exact hmem
  | Residual =>
    simp only [claimEntry, Prod.mk.injEq] at heq
    exact ChannelState.noConfusion heq.2

/-- On a channel some activated trigger statically matches, no withheld
entry survives the claim step: every such entry has been set `Residual`. -/
theorem claimActivated_claims {T : Type} (ops : TriggerOps T) (act : List T)
    (cs : List (Channel × ChannelState)) (c : Channel) (ev : Event)
    (hclaim : act.any (fun tr => ops.has_tracker_matching_channel tr c) = true) :
    (c, ChannelState.Withheld ev) ∉ claimActivated ops act cs := by
  intro h
  unfold claimActivated at h
  simp only [List.mem_map] at h
  obtain ⟨⟨c2, st2⟩, _, heq⟩ := h
  cases st2 with
  | Withheld ev2 =>
    cases h2 : act.any (fun tr => ops.has_tracker_matching_channel tr c2) with
    | true =>
      rw [claimEntry_claimed ops act c2 ev2 h2, Prod.mk.injEq] at heq
      exact ChannelState.noConfusion heq.2
    | false =>
      rw [claimEntry_unclaimed ops act c2 ev2 h2, Prod.mk.injEq] at heq
      rw [heq.1] at h2
      rw [h2] at hclaim
      exact Bool.false_ne_true hclaim
  | Residual =>
    simp only [claimEntry, Prod.mk.injEq] at heq
    exact ChannelState.noConfusion heq.2

/-- An unclaimed withheld entry passes the claim step unchanged. -/
theorem claimActivated_unclaimed {T : Type} (ops : TriggerOps T) (act : List T)
    (cs : List (Channel × ChannelState)) (c : Channel) (ev : Event)
    (hmem : (c, ChannelState.Withheld ev) ∈ cs)
    (hfree : act.any (fun tr => ops.has_tracker_matching_channel tr c) = false) :
    (c, ChannelState.Withheld ev) ∈ claimActivated ops act cs := by
  unfold claimActivated
  apply List.mem_map.mpr
  exact ⟨(c, ChannelState.Withheld ev), hmem,
    claimEntry_unclaimed ops act c ev hfree⟩

/-- Unfolding the channel lookup one entry at a time. -/
theorem lookupChannel_cons (p : Channel × ChannelState)
    (rest : List (Channel × ChannelState)) (c : Channel) :
    lookupChannel (p :: rest) c
      = if p.1 = c then some p.2 else lookupChannel rest c := by
  by_cases h : p.1 = c
  · simp [lookupChannel, List.find?_cons, h]
  · simp [lookupChannel, List.find?_cons, h]

/-- The lookup misses exactly when no entry carries the channel. -/
theorem lookupChannel_eq_none (cs : List (Channel × ChannelState))
    (c : Channel) :
    lookupChannel cs c = none ↔ ∀ p ∈ cs, p.1 ≠ c := by
  induction cs with
  | nil => simp [lookupChannel]
  | cons p rest ih =>
    rw [lookupChannel_cons]
    by_cases h : p.1 = c
    · simp [h]
    · simp [h, ih]

/-- A successful lookup returns a recorded entry. -/
theorem lookupChannel_mem {cs : List (Channel × ChannelState)} {c : Channel}
    {st : ChannelState} (h : lookupChannel cs c = some st) : (c, st) ∈ cs := by
  induction cs with
  | nil => cases h
  | cons p rest ih =>
    rw [lookupChannel_cons] at h
    by_cases hp : p.1 = c
    · rw [if_pos hp] at h
      obtain ⟨c2, st2⟩ := p
      simp only at hp
      simp only [Option.some.injEq] at h
      rw [← hp, ← h]
      exact List.mem_cons_self _ _
    · rw [if_neg hp] at h
      exact List.mem_cons_of_mem _ (ih h)

/-- Appending a fresh entry for a channel with no recorded state makes the
lookup return it. -/
theorem lookupChannel_append_right (cs : List (Channel × ChannelState))
    (c : Channel) (st : ChannelState) (h : lookupChannel cs c = none) :
    lookupChannel (cs ++ [(c, st)]) c = some st := by
  induction cs with
  | nil => simp [lookupChannel, List.find?]
  | cons p rest ih =>
    have hp : p.1 ≠ c :=
      (lookupChannel_eq_none _ _).mp h p (List.mem_cons_self _ _)
    have h2 : lookupChannel rest c = none := by
      rw [lookupChannel_eq_none] at h ⊢
      exact fun q hq => h q (List.mem_cons_of_mem _ hq)
    rw [List.cons_append, lookupChannel_cons, if_neg hp]
    exact ih h2

/-- `setFirst` does not change the channels of the entries. -/
theorem setFirst_fst (cs : List (Channel × ChannelState)) (c : Channel)
    (st : ChannelState) :
    (setFirst cs c st).map Prod.fst = cs.map Prod.fst := by
  induction cs with
  | nil => rfl
  | cons p rest ih =>
    by_cases h : p.1 = c
    · simp [setFirst, h]
    · simp [setFirst, h, ih]

/-- Every entry of `setFirst cs c st` is an old entry or the overwritten
`(c, st)`. -/
theorem setFirst_mem (cs : List (Channel × ChannelState)) (c : Channel)
    (st : ChannelState) (p : Channel × ChannelState)
    (h : p ∈ setFirst cs c st) : p ∈ cs ∨ p = (c, st) := by
  induction cs with
  | nil => cases h
  | cons q rest ih =>
    by_cases hq : q.1 = c
    · rw [setFirst, if_pos hq] at h
      rcases List.mem_cons.mp h with h1 | h1
      · right
        rw [h1, hq]
      · left
        exact List.mem_cons_of_mem _ h1
    · rw [setFirst, if_neg hq] at h
      rcases List.mem_cons.mp h with h1 | h1
      · left
        rw [h1]
        exact List.mem_cons_self _ _
      · rcases ih h1 with h2 | h2
        · exact Or.inl (List.mem_cons_of_mem _ h2)
        · exact Or.inr h2

/-- Entries on other channels survive `setFirst`. -/
theorem setFirst_mem_other (cs : List (Channel × ChannelState)) (c : Channel)
    (st : ChannelState) (p : Channel × ChannelState)
    (hmem : p ∈ cs) (hne : p.1 ≠ c) : p ∈ setFirst cs c st := by
  induction cs with
  | nil => cases hmem
  | cons q rest ih =>
    by_cases hq : q.1 = c
    · rw [setFirst, if_pos hq]
      rcases List.mem_cons.mp hmem with h1 | h1
      · exfalso
        rw [h1] at hne
        exact hne hq
      · exact List.mem_cons_of_mem _ h1
    · rw [setFirst, if_neg hq]
      rcases List.mem_cons.mp hmem with h1 | h1
      · rw [h1]
        exact List.mem_cons_self _ _
      · exact List.mem_cons_of_mem _ (ih h1)

/-- After overwriting the first entry of a present channel, the lookup
returns the new state. -/
theorem lookupChannel_setFirst (cs : List (Channel × ChannelState))
    (c : Channel) (st st0 : ChannelState)
    (h : lookupChannel cs c = some st0) :
    lookupChannel (setFirst cs c st) c = some st := by
  induction cs with
  | nil => cases h
  | cons p rest ih =>
    by_cases hp : p.1 = c
    · rw [setFirst, if_pos hp, lookupChannel_cons, if_pos hp]
    · rw [lookupChannel_cons, if_neg hp] at h
      rw [setFirst, if_neg hp, lookupChannel_cons, if_neg hp]
      exact ih h

/-- Filtering with a predicate that keeps every entry of a channel does not
change that channel's lookup. -/
theorem lookupChannel_filter (cs : List (Channel × ChannelState))
    (f : Channel × ChannelState → Bool) (c : Channel)
    (h : ∀ p ∈ cs, p.1 = c → f p = true) :
    lookupChannel (cs.filter f) c = lookupChannel cs c := by
  induction cs with
  | nil => rfl
  | cons p rest ih =>
    have hrest := ih (fun q hq => h q (List.mem_cons_of_mem _ hq))
    rw [List.filter_cons]
    by_cases hp : p.1 = c
    · rw [h p (List.mem_cons_self _ _) hp]
      simp only [if_true]
      rw [lookupChannel_cons, lookupChannel_cons, if_pos hp, if_pos hp]
    · cases hf : f p
      · simp only [Bool.false_eq_true, if_false]
        rw [lookupChannel_cons, if_neg hp]
        exact hrest
      · simp only [if_true]
        rw [lookupChannel_cons, if_neg hp, lookupChannel_cons, if_neg hp]
        exact hrest

/-- The lookup on a channel an activated-trigger claim does not touch is
unchanged by the claim step. -/
theorem lookupChannel_claimActivated {T : Type} (ops : TriggerOps T)
    (act : List T) (cs : List (Channel × ChannelState)) (c : Channel)
    (hfree : act.any (fun tr => ops.has_tracker_matching_channel tr c) = false) :
    lookupChannel (claimActivated ops act cs) c = lookupChannel cs c := by
  induction cs with
  | nil => rfl
  | cons p rest ih =>
    obtain ⟨c2, st2⟩ := p
    unfold claimActivated at *
    rw [List.map_cons]
    by_cases hp : c2 = c
    · subst hp
      cases st2 with
      | Withheld ev =>
        rw [claimEntry_unclaimed ops act c2 ev hfree]
        rw [lookupChannel_cons, lookupChannel_cons, if_pos rfl, if_pos rfl]
      | Residual =>
        rw [lookupChannel_cons, lookupChannel_cons]
        simp [claimEntry]
    · rw [lookupChannel_cons, lookupChannel_cons, if_neg, if_neg hp]
      · exact ih
      · rw [claimEntry_fst]
        exact hp

/-- The wakeup loop hands the token to every trigger and reports whether
some trigger expired. -/
theorem wakeupTriggers_spec {T : Type} (ops : TriggerOps T) (trs : List T)
    (tk : Token) :
    (wakeupTriggers ops trs tk).1 = trs.map (fun tr => (ops.wakeup tr tk).1)
    ∧ ((wakeupTriggers ops trs tk).2 = true
        ↔ ∃ tr ∈ trs, (ops.wakeup tr tk).2 = true) := by
  induction trs with
  | nil => simp [wakeupTriggers]
  | cons tr trs ih =>
    simp only [wakeupTriggers, List.map_cons]
    constructor
    · rw [ih.1]
    · rw [Bool.or_eq_true, ih.2]
      simp

/-- With the `Withholdable` flag set, `Withhold::apply` is the composition
of trigger feeding, channel bookkeeping, the claim step, the release scan
and the final push. -/
theorem Withhold.apply_withholdable_eq {T : Type} (ops : TriggerOps T) (w : Withhold T)
    (e : Event) (hf : e.flags.get EventFlag.Withholdable = true) :
    Withhold.apply ops w e
      = ({ triggers := (applyAllTriggers ops w.triggers (clearW e)).1
           keys := w.keys
           channel_state :=
             (releaseScan ops (applyAllTriggers ops w.triggers (clearW e)).1
               (claimActivated ops (applyAllTriggers ops w.triggers (clearW e)).2
                 (stepChannelUpdate w.keys w.channel_state (clearW e)).2)).1 },
         (releaseScan ops (applyAllTriggers ops w.triggers (clearW e)).1
            (claimActivated ops (applyAllTriggers ops w.triggers (clearW e)).2
              (stepChannelUpdate w.keys w.channel_state (clearW e)).2)).2
          ++ (stepChannelUpdate w.keys w.channel_state (clearW e)).1.toList) := by
  simp only [Withhold.apply, hf, if_true]

/-- With the `Withholdable` flag unset, `Withhold::apply` passes the event
straight through and changes nothing. -/
theorem Withhold.apply_pass_eq {T : Type} (ops : TriggerOps T)
    (w : Withhold T) (e : Event)
    (hf : e.flags.get EventFlag.Withholdable = false) :
    Withhold.apply ops w e = (w, [e]) := by
  simp only [Withhold.apply, hf]
  simp

/-- When no trigger expires, `Withhold::wakeup` only updates the triggers. -/
theorem Withhold.wakeup_eq_none {T : Type} (ops : TriggerOps T)
    (w : Withhold T) (tk : Token)
    (h : (wakeupTriggers ops w.triggers tk).2 = false) :
    Withhold.wakeup ops w tk
      = ({ w with triggers := (wakeupTriggers ops w.triggers tk).1 }, []) := by
  simp only [Withhold.wakeup, h]
  simp

/-- When some trigger expires, `Withhold::wakeup` re-runs the release scan. -/
theorem Withhold.wakeup_eq_some {T : Type} (ops : TriggerOps T)
    (w : Withhold T) (tk : Token)
    (h : (wakeupTriggers ops w.triggers tk).2 = true) :
    Withhold.wakeup ops w tk
      = ({ triggers := (wakeupTriggers ops w.triggers tk).1
           keys := w.keys
           channel_state :=
             (releaseScan ops (wakeupTriggers ops w.triggers tk).1
               w.channel_state).1 },
         (releaseScan ops (wakeupTriggers ops w.triggers tk).1
            w.channel_state).2) := by
  simp only [Withhold.wakeup, h]
  simp

/-- The final event of the channel bookkeeping step is the processed event
or nothing. -/
theorem stepChannelUpdate_final (keys : List Key)
    (cs : List (Channel × ChannelState)) (event : Event) :
    (stepChannelUpdate keys cs event).1 = none
    ∨ (stepChannelUpdate keys cs event).1 = some event := by
  unfold stepChannelUpdate
  repeat' split
  all_goals simp

/-- Every entry after the channel bookkeeping step is an old entry or a
fresh withheld entry holding the processed press event. -/
theorem stepChannelUpdate_mem (keys : List Key)
    (cs : List (Channel × ChannelState)) (event : Event)
    (p : Channel × ChannelState)
    (h : p ∈ (stepChannelUpdate keys cs event).2) :
    p ∈ cs
    ∨ (event.value = 1 ∧ p = (event.channel, ChannelState.Withheld event)) := by
  unfold stepChannelUpdate at h
  by_cases h1 : keys.any (fun k => k.matches event) = true
  · rw [if_pos h1] at h
    by_cases h2 : event.value = 1
    · rw [if_pos h2] at h
      cases hcur : lookupChannel cs event.channel with
      | none =>
        rw [hcur] at h
        simp only at h
        rcases List.mem_append.mp h with h3 | h3
        · exact Or.inl h3
        · exact Or.inr ⟨h2, by simpa using h3⟩
      | some st =>
        rw [hcur] at h
        cases st with
        | Withheld ev => exact Or.inl h
        | Residual =>
          rcases setFirst_mem _ _ _ _ h with h3 | h3
          · exact Or.inl h3
          · exact Or.inr ⟨h2, h3⟩
    · rw [if_neg h2] at h
      by_cases h3 : event.value = 0
      · rw [if_pos h3] at h
        cases hcur : lookupChannel cs event.channel with
        | none =>
          rw [hcur] at h
          exact Or.inl h
        | some st =>
          rw [hcur] at h
          cases st with
          | Withheld ev => exact Or.inl h
          | Residual => exact Or.inl (List.mem_of_mem_filter h)
      · rw [if_neg h3] at h
        exact Or.inl h
  · rw [if_neg h1] at h
    exact Or.inl h

/-- The channel bookkeeping step keeps the channels duplicate-free. -/
theorem stepChannelUpdate_nodup (keys : List Key)
    (cs : List (Channel × ChannelState)) (event : Event)
    (h : (cs.map Prod.fst).Nodup) :
    ((stepChannelUpdate keys cs event).2.map Prod.fst).Nodup := by
  unfold stepChannelUpdate
  by_cases h1 : keys.any (fun k => k.matches event) = true
  · rw [if_pos h1]
    by_cases h2 : event.value = 1
    · rw [if_pos h2]
      cases hcur : lookupChannel cs event.channel with
      | none =>
        simp only [List.map_append, List.map_cons, List.map_nil]
        rw [List.nodup_append]
        refine ⟨h, List.nodup_singleton _, ?_⟩
        intro c hc hc2
        simp only [List.mem_singleton] at hc2
        obtain ⟨p, hp, hp2⟩ := List.mem_map.mp hc
        have := (lookupChannel_eq_none cs event.channel).mp hcur p hp
        rw [hp2, hc2] at this
        exact this rfl
      | some st =>
        cases st with
        | Withheld ev => exact h
        | Residual =>
          rw [setFirst_fst]
          exact h
    · rw [if_neg h2]
      by_cases h3 : event.value = 0
      · rw [if_pos h3]
        cases hcur : lookupChannel cs event.channel with
        | none => exact h
        | some st =>
          cases st with
          | Withheld ev => exact h
          | Residual =>
            exact h.sublist ((List.filter_sublist cs).map Prod.fst)
      · rw [if_neg h3]
        exact h
  · rw [if_neg h1]
    exact h

/-- The channel bookkeeping step preserves the per-entry invariant: parked
events sit on their own channel with value 1. -/
theorem stepChannelUpdate_good (keys : List Key)
    (cs : List (Channel × ChannelState)) (event : Event)
    (h : ∀ p ∈ cs, ∀ ev, p.2 = ChannelState.Withheld ev →
        ev.channel = p.1 ∧ ev.value = 1)
    (p : Channel × ChannelState)
    (hp : p ∈ (stepChannelUpdate keys cs event).2) (ev : Event)
    (hev : p.2 = ChannelState.Withheld ev) :
    ev.channel = p.1 ∧ ev.value = 1 := by
  rcases stepChannelUpdate_mem keys cs event p hp with h1 | ⟨hv, h1⟩
  · exact h p h1 ev hev
  · rw [h1] at hev ⊢
    simp only [ChannelState.Withheld.injEq] at hev
    rw [← hev]
    exact ⟨rfl, hv⟩

/-- `Withhold::apply` preserves the internal well-formedness invariant. -/
theorem inv_apply {T : Type} (ops : TriggerOps T) (w : Withhold T) (e : Event)
    (h : WithholdInv w) : WithholdInv (Withhold.apply ops w e).1 := by
  by_cases hf : e.flags.get EventFlag.Withholdable = true
  · rw [Withhold.apply_withholdable_eq ops w e hf]
    constructor
    · have h1 := stepChannelUpdate_nodup w.keys w.channel_state (clearW e) h.1
      have h2 : ((claimActivated ops
            (applyAllTriggers ops w.triggers (clearW e)).2
            (stepChannelUpdate w.keys w.channel_state (clearW e)).2).map
              Prod.fst).Nodup := by
        rw [claimActivated_fst]
        exact h1
      exact h2.sublist ((releaseScan_sublist ops _ _).map Prod.fst)
    · intro p hp ev hev
      obtain ⟨c, st⟩ := p
      simp only at hev
      subst hev
      have hp2 := (releaseScan_sublist ops _ _).subset hp
      have hp3 := claimActivated_withheld_mem ops _ _ _ _ hp2
      exact stepChannelUpdate_good w.keys w.channel_state (clearW e) h.2
        _ hp3 ev rfl
  · rw [Withhold.apply_pass_eq ops w e (Bool.of_not_eq_true hf)]
    exact h

/-- `Withhold::wakeup` preserves the internal well-formedness invariant. -/
theorem inv_wakeup {T : Type} (ops : TriggerOps T) (w : Withhold T)
    (tk : Token) (h : WithholdInv w) :
    WithholdInv (Withhold.wakeup ops w tk).1 := by
  cases he : (wakeupTriggers ops w.triggers tk).2 with
  | false =>
    rw [Withhold.wakeup_eq_none ops w tk he]
    exact h
  | true =>
    rw [Withhold.wakeup_eq_some ops w tk he]
    constructor
    · exact h.1.sublist ((releaseScan_sublist ops _ _).map Prod.fst)
    · intro p hp ev hev
      exact h.2 p ((releaseScan_sublist ops _ _).subset hp) ev hev

/-- The state reached by `apply_to_all` is the fold of the per-event
applies. -/
theorem apply_to_all_fst {T : Type} (ops : TriggerOps T)
    (events : List Event) (w : Withhold T) (acc : List Event) :
    (events.foldl
        (fun acc2 e =>
          let p := Withhold.apply ops acc2.1 e
          (p.1, acc2.2 ++ p.2))
        (w, acc)).1
      = events.foldl (fun wa e => (Withhold.apply ops wa e).1) w := by
  induction events generalizing w acc with
  | nil => rfl
  | cons e es ih =>
    simp only [List.foldl_cons]
    exact ih _ _

/-- `Withhold::apply_to_all` preserves the internal well-formedness
invariant. -/
theorem inv_apply_to_all {T : Type} (ops : TriggerOps T) (w : Withhold T)
    (events : List Event) (h : WithholdInv w) :
    WithholdInv (Withhold.apply_to_all ops w events).1 := by
  unfold Withhold.apply_to_all
  rw [apply_to_all_fst]
  induction events generalizing w with
  | nil => exact h
  | cons e es ih =>
    simp only [List.foldl_cons]
    exact ih _ (inv_apply ops w e h)

/-- Every reachable `Withhold` state is well-formed. -/
theorem reachable_inv {T : Type} (ops : TriggerOps T) (w : Withhold T)
    (h : Reachable ops w) : WithholdInv w := by
  induction h with
  | new keys triggers =>
    exact ⟨by simp [Withhold.new], by intro p hp; cases hp⟩
  | apply_step e _ ih => exact inv_apply ops _ e ih
  | apply_to_all_step events _ ih => exact inv_apply_to_all ops _ events ih
  | wakeup_step tk _ ih => exact inv_wakeup ops _ tk ih

/-- Every event pushed by `Withhold::apply` is the incoming event (passed
through untouched), the incoming event with its flag consumed, or an event
that was already parked in some withheld entry when the call started. -/
theorem apply_out_mem {T : Type} (ops : TriggerOps T) (w : Withhold T)
    (e : Event) (x : Event) (hx : x ∈ (Withhold.apply ops w e).2) :
    x = e ∨ x = clearW e
    ∨ ∃ c, (c, ChannelState.Withheld x) ∈ w.channel_state := by
  by_cases hf : e.flags.get EventFlag.Withholdable = true
  · rw [Withhold.apply_withholdable_eq ops w e hf] at hx
    rcases List.mem_append.mp hx with h1 | h1
    · obtain ⟨c, hmem, _⟩ := releaseScan_out_mem _ _ _ x h1
      have h2 := claimActivated_withheld_mem ops _ _ _ _ hmem
      rcases stepChannelUpdate_mem _ _ _ _ h2 with h3 | ⟨_, h3⟩
      · exact Or.inr (Or.inr ⟨c, h3⟩)
      · simp only [Prod.mk.injEq, ChannelState.Withheld.injEq] at h3
        exact Or.inr (Or.inl h3.2)
    · rcases stepChannelUpdate_final w.keys w.channel_state (clearW e)
          with h2 | h2
      · rw [h2] at h1
        cases h1
      · rw [h2] at h1
        simp only [Option.toList_some, List.mem_singleton] at h1
        exact Or.inr (Or.inl h1)
  · rw [Withhold.apply_pass_eq ops w e (Bool.of_not_eq_true hf)] at hx
    simp only [List.mem_singleton] at hx
    exact Or.inl hx

/-- Every withheld entry after `Withhold::apply` is an old withheld entry
or holds the incoming event with its flag consumed. -/
theorem apply_withheld_mem {T : Type} (ops : TriggerOps T) (w : Withhold T)
    (e : Event) (c : Channel) (ev : Event)
    (h : (c, ChannelState.Withheld ev)
        ∈ (Withhold.apply ops w e).1.channel_state) :
    (c, ChannelState.Withheld ev) ∈ w.channel_state ∨ ev = clearW e := by
  by_cases hf : e.flags.get EventFlag.Withholdable = true
  · rw [Withhold.apply_withholdable_eq ops w e hf] at h
    have h2 := (releaseScan_sublist ops _ _).subset h
    have h3 := claimActivated_withheld_mem ops _ _ _ _ h2
    rcases stepChannelUpdate_mem _ _ _ _ h3 with h4 | ⟨_, h4⟩
    · exact Or.inl h4
    · simp only [Prod.mk.injEq, ChannelState.Withheld.injEq] at h4
      exact Or.inr h4.2
  · rw [Withhold.apply_pass_eq ops w e (Bool.of_not_eq_true hf)] at h
    exact Or.inl h

/-- Every event pushed by `Withhold::wakeup` was already parked in some
withheld entry when the call started. -/
theorem wakeup_out_mem {T : Type} (ops : TriggerOps T) (w : Withhold T)
    (tk : Token) (x : Event) (hx : x ∈ (Withhold.wakeup ops w tk).2) :
    ∃ c, (c, ChannelState.Withheld x) ∈ w.channel_state := by
  cases he : (wakeupTriggers ops w.triggers tk).2 with
  | false =>
    rw [Withhold.wakeup_eq_none ops w tk he] at hx
    cases hx
  | true =>
    rw [Withhold.wakeup_eq_some ops w tk he] at hx
    obtain ⟨c, hmem, _⟩ := releaseScan_out_mem _ _ _ x hx
    exact ⟨c, hmem⟩

/-- `Withhold::wakeup` never creates withheld entries. -/
theorem wakeup_withheld_mem {T : Type} (ops : TriggerOps T) (w : Withhold T)
    (tk : Token) (c : Channel) (ev : Event)
    (h : (c, ChannelState.Withheld ev)
        ∈ (Withhold.wakeup ops w tk).1.channel_state) :
    (c, ChannelState.Withheld ev) ∈ w.channel_state := by
  cases he : (wakeupTriggers ops w.triggers tk).2 with
  | false =>
    rw [Withhold.wakeup_eq_none ops w tk he] at h
    exact h
  | true =>
    rw [Withhold.wakeup_eq_some ops w tk he] at h
    exact (releaseScan_sublist ops _ _).subset h

/-- In a list whose keys are duplicate-free, the value stored under a key
is unique. -/
theorem nodup_key_unique {α β : Type} (l : List (α × β))
    (h : (l.map Prod.fst).Nodup) (c : α) (b1 b2 : β)
    (h1 : (c, b1) ∈ l) (h2 : (c, b2) ∈ l) : b1 = b2 := by
  induction l with
  | nil => cases h1
  | cons p rest ih =>
    rw [List.map_cons, List.nodup_cons] at h
    rcases List.mem_cons.mp h1 with e1 | e1 <;>
      rcases List.mem_cons.mp h2 with e2 | e2
    · rw [← e1, Prod.mk.injEq] at e2
      exact e2.2.symm
    · exfalso
      apply h.1
      have hm : c ∈ List.map Prod.fst rest := List.mem_map_of_mem Prod.fst e2
      rw [← e1]
      exact hm
    · exfalso
      apply h.1
      have hm : c ∈ List.map Prod.fst rest := List.mem_map_of_mem Prod.fst e1
      rw [← e2]
      exact hm
    · exact ih h.2 e1 e2

/-- Claim C10: in every reachable `Withhold` state the channel-state list
has at most one entry per channel, so the per-channel lookup is
unambiguous. -/
theorem claim_C10 {T : Type} (ops : TriggerOps T) (w : Withhold T)
    (h : Reachable ops w) :
    (w.channel_state.map Prod.fst).Nodup
    ∧ ∀ c st1 st2, (c, st1) ∈ w.channel_state →
        (c, st2) ∈ w.channel_state → st1 = st2 := by
  have hinv := reachable_inv ops w h
  exact ⟨hinv.1, fun c st1 st2 h1 h2 =>
    nodup_key_unique w.channel_state hinv.1 c st1 st2 h1 h2⟩

/-- Closed instance of claim C10, on the state reached by parking a C press
in a fresh withhold. -/
theorem claim_C10_witness :
    (((Withhold.apply unitOps wNoTrig pressC).1.channel_state.map
        Prod.fst).Nodup)
    ∧ ∀ c st1 st2,
        (c, st1) ∈ (Withhold.apply unitOps wNoTrig pressC).1.channel_state →
        (c, st2) ∈ (Withhold.apply unitOps wNoTrig pressC).1.channel_state →
        st1 = st2 :=
  claim_C10 unitOps _
    (Reachable.apply_step pressC (Reachable.new [keyC] []))

/-- Claim C2: for a withholdable release (value 0) on a channel matching a
withhold key: with no recorded channel state or a `Withheld` one, the
(flag-consumed) release is the step's final output event, preceded only by
events released from withheld entries; with a `Residual` state the release
is absorbed — it is not emitted — and the channel's state entry is
removed. -/
theorem claim_C2 {T : Type} (ops : TriggerOps T) (w : Withhold T) (e : Event)
    (hflag : e.flags.get EventFlag.Withholdable = true)
    (hval : e.value = 0)
    (hkeys : w.keys.any (fun k => k.matches e) = true)
    (hgood : ∀ p ∈ w.channel_state, ∀ ev, p.2 = ChannelState.Withheld ev →
        ev.value = 1) :
    ((lookupChannel w.channel_state e.channel = none
      ∨ (∃ ev0, lookupChannel w.channel_state e.channel
            = some (ChannelState.Withheld ev0))) →
      ∃ rel, (Withhold.apply ops w e).2 = rel ++ [clearW e]
        ∧ ∀ x ∈ rel, ∃ c, (c, ChannelState.Withheld x) ∈ w.channel_state)
    ∧ (lookupChannel w.channel_state e.channel = some ChannelState.Residual →
        clearW e ∉ (Withhold.apply ops w e).2
        ∧ lookupChannel (Withhold.apply ops w e).1.channel_state e.channel
            = none) := by
  have hkeys2 : w.keys.any (fun k => k.matches (clearW e)) = true := hkeys
  have hval2 : (clearW e).value = 0 := hval
  have hne1 : ¬ ((clearW e).value = 1) := by
    rw [clearW_value, hval]
    decide
  constructor
  · intro hcase
    have hfe : stepChannelUpdate w.keys w.channel_state (clearW e)
        = (some (clearW e), w.channel_state) := by
      unfold stepChannelUpdate
      rw [if_pos hkeys2, if_neg hne1, if_pos hval2]
      rcases hcase with hc | ⟨ev0, hc⟩
      · rw [show lookupChannel w.channel_state (clearW e).channel = none
            from hc]
      · rw [show lookupChannel w.channel_state (clearW e).channel
            = some (ChannelState.Withheld ev0) from hc]
    rw [Withhold.apply_withholdable_eq ops w e hflag, hfe]
    refine ⟨(releaseScan ops (applyAllTriggers ops w.triggers (clearW e)).1
        (claimActivated ops (applyAllTriggers ops w.triggers (clearW e)).2
          w.channel_state)).2, by simp, ?_⟩
    intro x hx
    obtain ⟨c, hmem, _⟩ := releaseScan_out_mem _ _ _ x hx
    exact ⟨c, claimActivated_withheld_mem ops _ _ _ _ hmem⟩
  · intro hres
    have hfe : stepChannelUpdate w.keys w.channel_state (clearW e)
        = (none, w.channel_state.filter
            (fun p => !decide (p.1 = (clearW e).channel))) := by
      unfold stepChannelUpdate
      rw [if_pos hkeys2, if_neg hne1, if_pos hval2,
        show lookupChannel w.channel_state (clearW e).channel
          = some ChannelState.Residual from hres]
    rw [Withhold.apply_withholdable_eq ops w e hflag, hfe]
    constructor
    · intro hx
      simp only [Option.toList_none, List.append_nil] at hx
      obtain ⟨c, hmem, _⟩ := releaseScan_out_mem _ _ _ _ hx
      have h2 := claimActivated_withheld_mem ops _ _ _ _ hmem
      have h3 := List.mem_of_mem_filter h2
      have h4 := hgood _ h3 (clearW e) rfl
      rw [clearW_value, hval] at h4
      exact absurd h4 (by decide)
    · rw [lookupChannel_eq_none]
      intro p hp
      have hp2 := (releaseScan_sublist ops _ _).subset hp
      have hp3 : p.1 ∈ (claimActivated ops
          (applyAllTriggers ops w.triggers (clearW e)).2
          (w.channel_state.filter
            (fun p => !decide (p.1 = (clearW e).channel)))).map Prod.fst :=
        List.mem_map_of_mem Prod.fst hp2
      rw [claimActivated_fst] at hp3
      obtain ⟨q, hq, hq2⟩ := List.mem_map.mp hp3
      have hqf := List.of_mem_filter hq
      simp only [Bool.not_eq_true', decide_eq_false_iff_not] at hqf
      rw [← hq2]
      exact hqf

/-- Closed instance of claim C2: with no recorded state a C release passes
through as the final event; with a Residual state it is absorbed and the
entry removed. -/
theorem claim_C2_witness :
    (∃ rel, (Withhold.apply unitOps wNoTrig relC).2 = rel ++ [clearW relC]
      ∧ ∀ x ∈ rel, ∃ c, (c, ChannelState.Withheld x) ∈ wNoTrig.channel_state)
    ∧ (clearW relC ∉ (Withhold.apply unitOps wResid relC).2
      ∧ lookupChannel (Withhold.apply unitOps wResid relC).1.channel_state
          relC.channel = none) :=
  ⟨(claim_C2 unitOps wNoTrig relC (by decide) (by decide) (by decide)
      (by intro p hp; simp [wNoTrig, Withhold.new] at hp)).1
      (Or.inl (by decide)),
   (claim_C2 unitOps wResid relC (by decide) (by decide) (by decide)
      (by
        intro p hp ev hev
        simp only [wResid, List.mem_singleton] at hp
        rw [hp] at hev
        exact ChannelState.noConfusion hev)).2 (by decide)⟩

/-- Claim C5 fails as stated: a withholdable C press fed to a withhold on
key C with no triggers is parked and then immediately released by the same
call's release scan, so the step does emit an event for it (and the channel
entry is deleted rather than left `Withheld`). -/
theorem claim_C5_counterexample :
    (Withhold.apply unitOps wNoTrig pressC).2 ≠ [] := by
  decide

/-- The press branch of the channel bookkeeping: the press is never the
final event, and afterwards the channel's entry is `Withheld` holding the
previously parked event if one was parked, the incoming press otherwise. -/
theorem stepChannelUpdate_press (keys : List Key)
    (cs : List (Channel × ChannelState)) (event : Event)
    (hkeys : keys.any (fun k => k.matches event) = true)
    (hval : event.value = 1) :
    (stepChannelUpdate keys cs event).1 = none
    ∧ lookupChannel (stepChannelUpdate keys cs event).2 event.channel
        = some (ChannelState.Withheld (parkedTarget cs event)) := by
  unfold stepChannelUpdate
  rw [if_pos hkeys, if_pos hval]
  cases hl : lookupChannel cs event.channel with
  | none =>
    have ht : parkedTarget cs event = event := by
      unfold parkedTarget
      rw [hl]
    rw [ht]
    exact ⟨rfl, lookupChannel_append_right cs event.channel _ hl⟩
  | some st =>
    cases st with
    | Withheld ev0 =>
      have ht : parkedTarget cs event = ev0 := by
        unfold parkedTarget
        rw [hl]
      rw [ht]
      exact ⟨rfl, hl⟩
    | Residual =>
      have ht : parkedTarget cs event = event := by
        unfold parkedTarget
        rw [hl]
      rw [ht]
      exact ⟨rfl, lookupChannel_setFirst cs event.channel _ _ hl⟩

/-- The channel bookkeeping step preserves "every parked event sits on its
own channel". -/
theorem stepChannelUpdate_chan_good (keys : List Key)
    (cs : List (Channel × ChannelState)) (event : Event)
    (h : ∀ p ∈ cs, ∀ ev, p.2 = ChannelState.Withheld ev →
        ev.channel = p.1) :
    ∀ p ∈ (stepChannelUpdate keys cs event).2, ∀ ev,
      p.2 = ChannelState.Withheld ev → ev.channel = p.1 := by
  intro p hp ev hev
  rcases stepChannelUpdate_mem keys cs event p hp with h1 | ⟨_, h1⟩
  · exact h p h1 ev hev
  · rw [h1] at hev ⊢
    simp only [ChannelState.Withheld.injEq] at hev
    rw [← hev]

/-- The claim step preserves "every parked event sits on its own
channel". -/
theorem claimActivated_chan_good {T : Type} (ops : TriggerOps T)
    (act : List T) (cs : List (Channel × ChannelState))
    (h : ∀ p ∈ cs, ∀ ev, p.2 = ChannelState.Withheld ev →
        ev.channel = p.1) :
    ∀ p ∈ claimActivated ops act cs, ∀ ev,
      p.2 = ChannelState.Withheld ev → ev.channel = p.1 := by
  intro p hp ev hev
  obtain ⟨c, st⟩ := p
  simp only at hev
  subst hev
  exact h _ (claimActivated_withheld_mem ops act cs c ev hp) ev rfl

/-- The claim step transforms the lookup of any channel pointwise through
the per-entry claim function. -/
theorem lookupChannel_map_claim {T : Type} (ops : TriggerOps T) (act : List T)
    (cs : List (Channel × ChannelState)) (c : Channel) :
    lookupChannel (claimActivated ops act cs) c
      = (lookupChannel cs c).map
          (fun st => (claimEntry ops act (c, st)).2) := by
  induction cs with
  | nil => rfl
  | cons p rest ih =>
    obtain ⟨pc, pst⟩ := p
    unfold claimActivated at *
    rw [List.map_cons, lookupChannel_cons, lookupChannel_cons]
    by_cases hp : pc = c
    · subst hp
      rw [if_pos (claimEntry_fst ops act (pc, pst)), if_pos rfl]
      rfl
    · rw [if_neg, if_neg hp]
      · exact ih
      · rw [claimEntry_fst]
        exact hp

/-- A channel whose entries are all `Residual` keeps its lookup through the
release scan. -/
theorem lookupChannel_releaseScan_residual {T : Type} (ops : TriggerOps T)
    (triggers : List T) (cs : List (Channel × ChannelState)) (c : Channel)
    (h : lookupChannel cs c = some ChannelState.Residual)
    (hall : ∀ p ∈ cs, p.1 = c → p.2 = ChannelState.Residual) :
    lookupChannel (releaseScan ops triggers cs).1 c
      = some ChannelState.Residual := by
  rw [releaseScan_eq, lookupChannel_filter]
  · exact h
  · intro p hp hpc
    obtain ⟨pc, pst⟩ := p
    have h2 := hall (pc, pst) hp hpc
    simp only at h2
    subst h2
    rfl

/-- Core of the amended claim C5: once the press bookkeeping has recorded a
withheld entry for the channel, if the channel is still actively matched by
some trigger and no just-activated trigger claims it, the claim step and
release scan leave the entry untouched and release only other channels. -/
theorem claim_C5_core {T : Type} (ops : TriggerOps T) (tr1 act : List T)
    (cs1 : List (Channel × ChannelState)) (ch : Channel) (target : Event)
    (hlook : lookupChannel cs1 ch = some (ChannelState.Withheld target))
    (hactive : stillWithheld ops tr1 ch = true)
    (hfree : act.any (fun tr => ops.has_tracker_matching_channel tr ch) = false)
    (hgood1 : ∀ p ∈ cs1, ∀ ev, p.2 = ChannelState.Withheld ev →
        ev.channel = p.1) :
    (∀ x ∈ (releaseScan ops tr1 (claimActivated ops act cs1)).2,
        x.channel ≠ ch)
    ∧ lookupChannel (releaseScan ops tr1 (claimActivated ops act cs1)).1 ch
        = some (ChannelState.Withheld target) := by
  constructor
  · intro x hx
    obtain ⟨c, hmem, hstill⟩ := releaseScan_out_mem _ _ _ x hx
    have hmem2 := claimActivated_withheld_mem ops _ _ _ _ hmem
    have hx2 : x.channel = c := hgood1 _ hmem2 x rfl
    intro hcc
    have hc : c = ch := by rw [← hx2, hcc]
    rw [hc, hactive] at hstill
    simp at hstill
  · have h2 : lookupChannel (claimActivated ops act cs1) ch
        = some (ChannelState.Withheld target) := by
      rw [lookupChannel_claimActivated ops act cs1 ch hfree]
      exact hlook
    rw [releaseScan_eq]
    rw [lookupChannel_filter]
    · exact h2
    · intro p hp hpc
      obtain ⟨pc, pst⟩ := p
      simp only at hpc
      subst hpc
      cases pst with
      | Withheld ev => exact hactive
      | Residual => rfl

/-- An event whose channel appears in no entry is never emitted by the
release scan (given well-channelled entries). -/
theorem releaseScan_not_mem {T : Type} (ops : TriggerOps T) (triggers : List T)
    (cs : List (Channel × ChannelState)) (ev : Event)
    (hgood : ∀ p ∈ cs, ∀ ev2, p.2 = ChannelState.Withheld ev2 →
        ev2.channel = p.1)
    (hnot : ev.channel ∉ cs.map Prod.fst) :
    ev ∉ (releaseScan ops triggers cs).2 := by
  intro hx
  obtain ⟨c, hmem, _⟩ := releaseScan_out_mem _ _ _ ev hx
  have h2 : ev.channel = c := hgood _ hmem ev rfl
  apply hnot
  rw [h2]
  exact List.mem_map_of_mem Prod.fst hmem

/-- A withheld entry whose channel no trigger still actively matches is
released by the scan exactly once, and its channel leaves the state. -/
theorem releaseScan_count_one {T : Type} (ops : TriggerOps T)
    (triggers : List T) (cs : List (Channel × ChannelState)) (c : Channel)
    (ev : Event)
    (hmem : (c, ChannelState.Withheld ev) ∈ cs)
    (hnodup : (cs.map Prod.fst).Nodup)
    (hgood : ∀ p ∈ cs, ∀ ev2, p.2 = ChannelState.Withheld ev2 →
        ev2.channel = p.1)
    (hrel : stillWithheld ops triggers c = false) :
    (releaseScan ops triggers cs).2.count ev = 1
    ∧ c ∉ (releaseScan ops triggers cs).1.map Prod.fst := by
  have hevc : ev.channel = c := hgood _ hmem ev rfl
  induction cs with
  | nil => cases hmem
  | cons p rest ih =>
    rw [List.map_cons, List.nodup_cons] at hnodup
    obtain ⟨pc, pst⟩ := p
    rcases List.mem_cons.mp hmem with heq | hmem2
    · rw [Prod.mk.injEq] at heq
      obtain ⟨h1, h2⟩ := heq
      subst h1
      subst h2
      simp only [releaseScan, hrel, Bool.false_eq_true, if_false]
      constructor
      · rw [List.count_cons_self]
        have hzero : ev ∉ (releaseScan ops triggers rest).2 := by
          apply releaseScan_not_mem ops triggers rest ev
          · intro q hq ev2 hev2
            exact hgood q (List.mem_cons_of_mem _ hq) ev2 hev2
          · rw [hevc]
            exact hnodup.1
        rw [List.count_eq_zero.mpr hzero]
      · intro hc
        apply hnodup.1
        have hsub := (releaseScan_sublist ops triggers rest).map Prod.fst
        exact hsub.subset hc
    · have hcin : c ∈ rest.map Prod.fst :=
        List.mem_map_of_mem Prod.fst hmem2
      have hpcne : pc ≠ c := fun h => hnodup.1 (h ▸ hcin)
      have hih := ih hmem2 hnodup.2
        (fun q hq ev2 hev2 => hgood q (List.mem_cons_of_mem _ hq) ev2 hev2)
      cases pst with
      | Withheld ev2 =>
        have hev2c : ev2.channel = pc :=
          hgood (pc, ChannelState.Withheld ev2) (List.mem_cons_self _ _)
            ev2 rfl
        cases hs : stillWithheld ops triggers pc with
        | true =>
          simp only [releaseScan, hs, if_true]
          refine ⟨hih.1, ?_⟩
          intro hc
          simp only [List.map_cons, List.mem_cons] at hc
          rcases hc with hc | hc
          · exact hpcne hc.symm
          · exact hih.2 hc
        | false =>
          simp only [releaseScan, hs, Bool.false_eq_true, if_false]
          refine ⟨?_, hih.2⟩
          rw [List.count_cons_of_ne, hih.1]
          intro hee
          apply hpcne
          rw [← hev2c, ← hee, hevc]
      | Residual =>
        simp only [releaseScan]
        refine ⟨hih.1, ?_⟩
        intro hc
        simp only [List.map_cons, List.mem_cons] at hc
        rcases hc with hc | hc
        · exact hpcne hc.symm
        · exact hih.2 hc

/-- Claim C5 (amended): for a withholdable press (value 1) on a channel
matching a withhold key, in a well-formed state: (1) the press is never
scheduled as the step's final event — the call's output is exactly what the
release scan emits; (2) the press bookkeeping leaves the channel `Withheld`
holding the previously parked event if one was parked, the flag-consumed
press otherwise; (3) if some trigger still has an active tracker matching
the channel and no just-activated trigger claims it, the call emits nothing
on that channel and the entry survives as that `Withheld` entry; (4) the
entry survives the call as `Withheld` ONLY under those two conditions, and
then only holding that event; otherwise (5) a claimed channel ends the call
`Residual`, or (6) with no active match left, the parked event is released
(emitted exactly once) within the same call and the entry deleted. -/
theorem claim_C5 {T : Type} (ops : TriggerOps T) (w : Withhold T) (e : Event)
    (hflag : e.flags.get EventFlag.Withholdable = true)
    (hval : e.value = 1)
    (hkeys : w.keys.any (fun k => k.matches e) = true)
    (hgood : ∀ p ∈ w.channel_state, ∀ ev, p.2 = ChannelState.Withheld ev →
        ev.channel = p.1)
    (hnodup : (w.channel_state.map Prod.fst).Nodup) :
    ((stepChannelUpdate w.keys w.channel_state (clearW e)).1 = none
     ∧ (Withhold.apply ops w e).2
         = (releaseScan ops (applyAllTriggers ops w.triggers (clearW e)).1
             (claimActivated ops
               (applyAllTriggers ops w.triggers (clearW e)).2
               (stepChannelUpdate w.keys w.channel_state (clearW e)).2)).2)
    ∧ lookupChannel (stepChannelUpdate w.keys w.channel_state (clearW e)).2
        e.channel
        = some (ChannelState.Withheld (parkedTarget w.channel_state (clearW e)))
    ∧ (stillWithheld ops (applyAllTriggers ops w.triggers (clearW e)).1
          e.channel = true →
        (applyAllTriggers ops w.triggers (clearW e)).2.any
            (fun tr => ops.has_tracker_matching_channel tr e.channel)
            = false →
        (∀ x ∈ (Withhold.apply ops w e).2, x.channel ≠ e.channel)
        ∧ lookupChannel (Withhold.apply ops w e).1.channel_state e.channel
            = some (ChannelState.Withheld
                (parkedTarget w.channel_state (clearW e))))
    ∧ (∀ ev2,
        lookupChannel (Withhold.apply ops w e).1.channel_state e.channel
            = some (ChannelState.Withheld ev2) →
        ev2 = parkedTarget w.channel_state (clearW e)
        ∧ stillWithheld ops (applyAllTriggers ops w.triggers (clearW e)).1
            e.channel = true
        ∧ (applyAllTriggers ops w.triggers (clearW e)).2.any
            (fun tr => ops.has_tracker_matching_channel tr e.channel)
            = false)
    ∧ ((applyAllTriggers ops w.triggers (clearW e)).2.any
          (fun tr => ops.has_tracker_matching_channel tr e.channel) = true →
        lookupChannel (Withhold.apply ops w e).1.channel_state e.channel
            = some ChannelState.Residual)
    ∧ ((applyAllTriggers ops w.triggers (clearW e)).2.any
          (fun tr => ops.has_tracker_matching_channel tr e.channel) = false →
        stillWithheld ops (applyAllTriggers ops w.triggers (clearW e)).1
            e.channel = false →
        (Withhold.apply ops w e).2.count
            (parkedTarget w.channel_state (clearW e)) = 1
        ∧ lookupChannel (Withhold.apply ops w e).1.channel_state e.channel
            = none) := by
  have hkeys2 : w.keys.any (fun k => k.matches (clearW e)) = true := hkeys
  have hval2 : (clearW e).value = 1 := hval
  have hpress := stepChannelUpdate_press w.keys w.channel_state (clearW e)
    hkeys2 hval2
  simp only [clearW_channel] at hpress
  have hgood1 := stepChannelUpdate_chan_good w.keys w.channel_state
    (clearW e) hgood
  refine ⟨⟨hpress.1, ?_⟩, hpress.2, ?_, ?_, ?_, ?_⟩
  · rw [Withhold.apply_withholdable_eq ops w e hflag, hpress.1]
    simp
  · intro hact hfree
    have hcore := claim_C5_core ops
      (applyAllTriggers ops w.triggers (clearW e)).1
      (applyAllTriggers ops w.triggers (clearW e)).2
      (stepChannelUpdate w.keys w.channel_state (clearW e)).2
      e.channel (parkedTarget w.channel_state (clearW e))
      hpress.2 hact hfree hgood1
    refine ⟨?_, ?_⟩
    · intro x hx
      rw [Withhold.apply_withholdable_eq ops w e hflag, hpress.1] at hx
      simp only [Option.toList_none, List.append_nil] at hx
      exact hcore.1 x hx
    · rw [Withhold.apply_withholdable_eq ops w e hflag]
      exact hcore.2
  · intro ev2 hsurv
    rw [Withhold.apply_withholdable_eq ops w e hflag] at hsurv
    have hmemScan := lookupChannel_mem hsurv
    rw [releaseScan_eq] at hmemScan
    have hmf := List.mem_filter.mp hmemScan
    have hact : stillWithheld ops
        (applyAllTriggers ops w.triggers (clearW e)).1 e.channel = true :=
      hmf.2
    have hfree : (applyAllTriggers ops w.triggers (clearW e)).2.any
        (fun tr => ops.has_tracker_matching_channel tr e.channel)
        = false := by
      cases hc : (applyAllTriggers ops w.triggers (clearW e)).2.any
          (fun tr => ops.has_tracker_matching_channel tr e.channel) with
      | true => exact absurd hmf.1 (claimActivated_claims ops _ _ _ ev2 hc)
      | false => rfl
    refine ⟨?_, hact, hfree⟩
    have hmem1 := lookupChannel_mem hpress.2
    have hmem2 := claimActivated_unclaimed ops
      (applyAllTriggers ops w.triggers (clearW e)).2
      (stepChannelUpdate w.keys w.channel_state (clearW e)).2
      e.channel (parkedTarget w.channel_state (clearW e)) hmem1 hfree
    have hnodup2 : ((claimActivated ops
          (applyAllTriggers ops w.triggers (clearW e)).2
          (stepChannelUpdate w.keys w.channel_state (clearW e)).2).map
            Prod.fst).Nodup := by
      rw [claimActivated_fst]
      exact stepChannelUpdate_nodup w.keys w.channel_state (clearW e)
        hnodup
    have hu := nodup_key_unique _ hnodup2 e.channel _ _ hmf.1 hmem2
    simp only [ChannelState.Withheld.injEq] at hu
    exact hu
  · intro hclaim
    rw [Withhold.apply_withholdable_eq ops w e hflag]
    have hlook2 : lookupChannel (claimActivated ops
          (applyAllTriggers ops w.triggers (clearW e)).2
          (stepChannelUpdate w.keys w.channel_state (clearW e)).2)
          e.channel = some ChannelState.Residual := by
      rw [lookupChannel_map_claim, hpress.2]
      have hce := claimEntry_claimed ops
        (applyAllTriggers ops w.triggers (clearW e)).2 e.channel
        (parkedTarget w.channel_state (clearW e)) hclaim
      simp [hce]
    have hall : ∀ p ∈ claimActivated ops
          (applyAllTriggers ops w.triggers (clearW e)).2
          (stepChannelUpdate w.keys w.channel_state (clearW e)).2,
        p.1 = e.channel → p.2 = ChannelState.Residual := by
      intro p hp hpc
      unfold claimActivated at hp
      obtain ⟨q, hq, hq2⟩ := List.mem_map.mp hp
      obtain ⟨qc, qst⟩ := q
      have hfst : p.1 = qc := by
        rw [← hq2]
        exact claimEntry_fst ops _ (qc, qst)
      have hqc : qc = e.channel := by
        rw [← hfst]
        exact hpc
      subst hqc
      cases qst with
      | Withheld ev3 =>
        rw [← hq2, claimEntry_claimed ops _ e.channel ev3 hclaim]
      | Residual =>
        rw [← hq2]
        rfl
    exact lookupChannel_releaseScan_residual ops _ _ e.channel hlook2 hall
  · intro hfree hnact
    have hmem1 := lookupChannel_mem hpress.2
    have hmem2 := claimActivated_unclaimed ops
      (applyAllTriggers ops w.triggers (clearW e)).2
      (stepChannelUpdate w.keys w.channel_state (clearW e)).2
      e.channel (parkedTarget w.channel_state (clearW e)) hmem1 hfree
    have hnodup2 : ((claimActivated ops
          (applyAllTriggers ops w.triggers (clearW e)).2
          (stepChannelUpdate w.keys w.channel_state (clearW e)).2).map
            Prod.fst).Nodup := by
      rw [claimActivated_fst]
      exact stepChannelUpdate_nodup w.keys w.channel_state (clearW e)
        hnodup
    have hgood2 := claimActivated_chan_good ops
      (applyAllTriggers ops w.triggers (clearW e)).2
      (stepChannelUpdate w.keys w.channel_state (clearW e)).2 hgood1
    have hcount := releaseScan_count_one ops
      (applyAllTriggers ops w.triggers (clearW e)).1
      (claimActivated ops (applyAllTriggers ops w.triggers (clearW e)).2
        (stepChannelUpdate w.keys w.channel_state (clearW e)).2)
      e.channel (parkedTarget w.channel_state (clearW e))
      hmem2 hnodup2 hgood2 hnact
    constructor
    · rw [Withhold.apply_withholdable_eq ops w e hflag, hpress.1]
      simp only [Option.toList_none, List.append_nil]
      exact hcount.1
    · rw [Withhold.apply_withholdable_eq ops w e hflag,
        lookupChannel_eq_none]
      intro p hp hpc
      apply hcount.2
      rw [← hpc]
      exact List.mem_map_of_mem Prod.fst hp

/-- Closed instances of the amended claim C5: with an active `holdOps`
trigger the C press is parked and nothing is emitted on its channel; with
an activating trigger the entry ends the call `Residual`; with no triggers
the press is released exactly once in the same call and the entry deleted;
and in every case the press is not the step's final event. -/
theorem claim_C5_witness :
    ((stepChannelUpdate wHold.keys wHold.channel_state (clearW pressC)).1
        = none)
    ∧ ((∀ x ∈ (Withhold.apply holdOps wHold pressC).2,
          x.channel ≠ pressC.channel)
      ∧ lookupChannel
          (Withhold.apply holdOps wHold pressC).1.channel_state
          pressC.channel
          = some (ChannelState.Withheld
              (parkedTarget wHold.channel_state (clearW pressC))))
    ∧ (lookupChannel
        (Withhold.apply actOps (Withhold.new [keyC] [()])
          pressC).1.channel_state pressC.channel
        = some ChannelState.Residual)
    ∧ ((Withhold.apply unitOps wNoTrig pressC).2.count
          (parkedTarget wNoTrig.channel_state (clearW pressC)) = 1
      ∧ lookupChannel
          (Withhold.apply unitOps wNoTrig pressC).1.channel_state
          pressC.channel = none) :=
  ⟨(claim_C5 holdOps wHold pressC (by decide) (by decide) (by decide)
      (by intro p hp; simp [wHold, Withhold.new] at hp)
      (by decide)).1.1,
   (claim_C5 holdOps wHold pressC (by decide) (by decide) (by decide)
      (by intro p hp; simp [wHold, Withhold.new] at hp)
      (by decide)).2.2.1 (by decide) (by decide),
   (claim_C5 actOps (Withhold.new [keyC] [()]) pressC (by decide)
      (by decide) (by decide)
      (by intro p hp; simp [Withhold.new] at hp)
      (by decide)).2.2.2.2.1 (by decide),
   (claim_C5 unitOps wNoTrig pressC (by decide) (by decide) (by decide)
      (by intro p hp; simp [wNoTrig, Withhold.new] at hp)
      (by decide)).2.2.2.2.2 (by decide) (by decide)⟩

/-- Claim C6: `Withhold::wakeup` hands the token to every trigger; if none
reports an expired activation window nothing is emitted and the channel
state is untouched; if at least one expired, the release scan is re-run on
the (post-wakeup) triggers, and a parked press whose channel no trigger
still actively matches is then released exactly once, its entry leaving the
state. -/
theorem claim_C6 {T : Type} (ops : TriggerOps T) (w : Withhold T)
    (tk : Token) (c : Channel) (ev : Event) :
    ((Withhold.wakeup ops w tk).1.triggers
        = w.triggers.map (fun tr => (ops.wakeup tr tk).1))
    ∧ ((∀ tr ∈ w.triggers, (ops.wakeup tr tk).2 = false) →
        (Withhold.wakeup ops w tk).2 = []
        ∧ (Withhold.wakeup ops w tk).1.channel_state = w.channel_state)
    ∧ ((wakeupTriggers ops w.triggers tk).2 = true →
        (Withhold.wakeup ops w tk).2
            = (releaseScan ops (wakeupTriggers ops w.triggers tk).1
                w.channel_state).2
        ∧ (Withhold.wakeup ops w tk).1.channel_state
            = (releaseScan ops (wakeupTriggers ops w.triggers tk).1
                w.channel_state).1)
    ∧ ((wakeupTriggers ops w.triggers tk).2 = true →
        (c, ChannelState.Withheld ev) ∈ w.channel_state →
        (w.channel_state.map Prod.fst).Nodup →
        (∀ p ∈ w.channel_state, ∀ ev2, p.2 = ChannelState.Withheld ev2 →
            ev2.channel = p.1) →
        stillWithheld ops (wakeupTriggers ops w.triggers tk).1 c = false →
        (Withhold.wakeup ops w tk).2.count ev = 1
        ∧ lookupChannel (Withhold.wakeup ops w tk).1.channel_state c
            = none) := by
  refine ⟨?_, ?_, ?_, ?_⟩
  · cases he : (wakeupTriggers ops w.triggers tk).2 with
    | false =>
      rw [Withhold.wakeup_eq_none ops w tk he]
      exact (wakeupTriggers_spec ops w.triggers tk).1
    | true =>
      rw [Withhold.wakeup_eq_some ops w tk he]
      exact (wakeupTriggers_spec ops w.triggers tk).1
  · intro hall
    have he : (wakeupTriggers ops w.triggers tk).2 = false := by
      cases he2 : (wakeupTriggers ops w.triggers tk).2 with
      | false => rfl
      | true =>
        obtain ⟨tr, htr, hx⟩ := (wakeupTriggers_spec ops w.triggers tk).2.mp he2
        rw [hall tr htr] at hx
        cases hx
    rw [Withhold.wakeup_eq_none ops w tk he]
    exact ⟨rfl, rfl⟩
  · intro he
    rw [Withhold.wakeup_eq_some ops w tk he]
    exact ⟨rfl, rfl⟩
  · intro he hmem hnodup hgood hrel
    rw [Withhold.wakeup_eq_some ops w tk he]
    have hcount := releaseScan_count_one ops
      (wakeupTriggers ops w.triggers tk).1 w.channel_state c ev
      hmem hnodup hgood hrel
    refine ⟨hcount.1, ?_⟩
    rw [lookupChannel_eq_none]
    intro p hp hpc
    apply hcount.2
    rw [← hpc]
    exact List.mem_map_of_mem Prod.fst hp

/-- Closed instance of claim C6: with a press parked on channel C and the
only trigger expiring at the wakeup, the press is released exactly once and
its entry removed. -/
theorem claim_C6_witness :
    ((Withhold.wakeup holdOps wHoldParked 0).1.triggers
        = wHoldParked.triggers.map (fun tr => (holdOps.wakeup tr 0).1))
    ∧ ((Withhold.wakeup holdOps wHoldParked 0).2.count (clearW pressC) = 1
      ∧ lookupChannel (Withhold.wakeup holdOps wHoldParked 0).1.channel_state
          pressC.channel = none) :=
  ⟨(claim_C6 holdOps wHoldParked 0 pressC.channel (clearW pressC)).1,
   (claim_C6 holdOps wHoldParked 0 pressC.channel (clearW pressC)).2.2.2
     (by decide) (by decide) (by decide)
     (by
       intro p hp ev2 hev2
       have hcs : wHoldParked.channel_state
           = [(pressC.channel, ChannelState.Withheld (clearW pressC))] := by
         decide
       rw [hcs, List.mem_singleton] at hp
       rw [hp] at hev2 ⊢
       simp only [ChannelState.Withheld.injEq] at hev2
       rw [← hev2]
       rfl)
     (by decide)⟩

/-- Claim C3: claim exclusivity. Once a press parked for a channel has left
the withheld entries (as happens when the entry turns `Residual` because a
just-activated trigger's tracker matches the channel), no later `apply` or
`wakeup` call ever emits it, as long as no later input re-parks an equal
event; a channel claimed by a just-activated trigger ends the very step
with no withheld entry at all; and a value-0 release arriving while the
channel state is `Residual` is absorbed, never emitted. -/
theorem claim_C3 {T : Type} (ops : TriggerOps T) (w : Withhold T)
    (calls : List WithholdCall) (e : Event) (c : Channel) (ev : Event) :
    ((∀ c2, (c2, ChannelState.Withheld ev) ∉ w.channel_state) →
      (∀ e2, WithholdCall.ev e2 ∈ calls → e2 ≠ ev ∧ clearW e2 ≠ ev) →
      ev ∉ (Withhold.run ops w calls).2)
    ∧ (e.flags.get EventFlag.Withholdable = true →
        (applyAllTriggers ops w.triggers (clearW e)).2.any
            (fun tr => ops.has_tracker_matching_channel tr c) = true →
        ∀ ev2, (c, ChannelState.Withheld ev2)
            ∉ (Withhold.apply ops w e).1.channel_state)
    ∧ (e.flags.get EventFlag.Withholdable = true →
        e.value = 0 →
        w.keys.any (fun k => k.matches e) = true →
        lookupChannel w.channel_state e.channel
            = some ChannelState.Residual →
        (∀ p ∈ w.channel_state, ∀ ev2, p.2 = ChannelState.Withheld ev2 →
            ev2.value = 1) →
        clearW e ∉ (Withhold.apply ops w e).2) := by
  refine ⟨?_, ?_, ?_⟩
  · intro hstate hcalls
    induction calls generalizing w with
    | nil => simp [Withhold.run]
    | cons call rest ih =>
      cases call with
      | ev e2 =>
        have hne := hcalls e2 (List.mem_cons_self _ _)
        simp only [Withhold.run, List.mem_append]
        intro hx
        rcases hx with hx | hx
        · rcases apply_out_mem ops w e2 ev hx with h1 | h1 | ⟨c2, h1⟩
          · exact hne.1 h1.symm
          · exact hne.2 h1.symm
          · exact hstate c2 h1
        · refine ih (Withhold.apply ops w e2).1 ?_ ?_ hx
          · intro c2 hmem
            rcases apply_withheld_mem ops w e2 c2 ev hmem with h1 | h1
            · exact hstate c2 h1
            · exact hne.2 h1.symm
          · intro e3 h3
            exact hcalls e3 (List.mem_cons_of_mem _ h3)
      | wake tk =>
        simp only [Withhold.run, List.mem_append]
        intro hx
        rcases hx with hx | hx
        · obtain ⟨c2, h1⟩ := wakeup_out_mem ops w tk ev hx
          exact hstate c2 h1
        · refine ih (Withhold.wakeup ops w tk).1 ?_ ?_ hx
          · intro c2 hmem
            exact hstate c2 (wakeup_withheld_mem ops w tk c2 ev hmem)
          · intro e3 h3
            exact hcalls e3 (List.mem_cons_of_mem _ h3)
  · intro hflag hclaim ev2
    rw [Withhold.apply_withholdable_eq ops w e hflag]
    intro hmem
    have h2 := (releaseScan_sublist ops _ _).subset hmem
    exact claimActivated_claims ops _ _ c ev2 hclaim h2
  · intro hflag hval hkeys hres hgoodv
    have hkeys2 : w.keys.any (fun k => k.matches (clearW e)) = true := hkeys
    have hval2 : (clearW e).value = 0 := hval
    have hne1 : ¬ ((clearW e).value = 1) := by
      rw [clearW_value, hval]
      decide
    have hfe : stepChannelUpdate w.keys w.channel_state (clearW e)
        = (none, w.channel_state.filter
            (fun p => !decide (p.1 = (clearW e).channel))) := by
      unfold stepChannelUpdate
      rw [if_pos hkeys2, if_neg hne1, if_pos hval2,
        show lookupChannel w.channel_state (clearW e).channel
          = some ChannelState.Residual from hres]
    rw [Withhold.apply_withholdable_eq ops w e hflag, hfe]
    intro hx
    simp only [Option.toList_none, List.append_nil] at hx
    obtain ⟨c2, hmem, _⟩ := releaseScan_out_mem _ _ _ _ hx
    have h2 := claimActivated_withheld_mem ops _ _ _ _ hmem
    have h3 := List.mem_of_mem_filter h2
    have h4 := hgoodv _ h3 (clearW e) rfl
    rw [clearW_value, hval] at h4
    exact absurd h4 (by decide)

/-- Closed instance of claim C3: after channel C turned `Residual`, neither
a later release nor a wakeup emits the formerly parked press; a press fed
through an activating trigger leaves no withheld entry; and a release on
the `Residual` channel is absorbed. -/
theorem claim_C3_witness :
    (clearW pressC
        ∉ (Withhold.run unitOps wResid
            [WithholdCall.ev relC, WithholdCall.wake 0]).2)
    ∧ (∀ ev2, (pressC.channel, ChannelState.Withheld ev2)
        ∉ (Withhold.apply actOps (Withhold.new [keyC] [()])
            pressC).1.channel_state)
    ∧ (clearW relC ∉ (Withhold.apply unitOps wResid relC).2) :=
  ⟨(claim_C3 unitOps wResid [WithholdCall.ev relC, WithholdCall.wake 0]
      relC pressC.channel (clearW pressC)).1
      (by
        intro c2 hmem
        simp only [wResid, List.mem_singleton, Prod.mk.injEq] at hmem
        exact ChannelState.noConfusion hmem.2)
      (by
        intro e2 h2
        simp only [List.mem_cons, List.not_mem_nil, or_false] at h2
        rcases h2 with h2 | h2
        · rw [WithholdCall.ev.injEq] at h2
          subst h2
          exact ⟨by decide, by decide⟩
        · exact WithholdCall.noConfusion h2),
   (claim_C3 actOps (Withhold.new [keyC] [()]) [] pressC pressC.channel
      pressC).2.1 (by decide) (by decide),
   (claim_C3 unitOps wResid [] relC relC.channel relC).2.2 (by decide)
      (by decide) (by decide) (by decide)
      (by
        intro p hp ev2 hev2
        simp only [wResid, List.mem_singleton] at hp
        rw [hp] at hev2
        exact ChannelState.noConfusion hev2)⟩

end Evsieve
